import Mathlib

/-!
Verification of the chicago_crime_data_cli download engine.

The Python sources under src/chicago_crime_downloader are shallowly embedded:
dates are civil (year, month, day) triples with the proleptic Gregorian
ordinal of CPython (date.toordinal, date(1,1,1) has ordinal 1); the
filesystem is a directory-existence flag plus the list of file names in the
window base directory; HTTP is an oracle from request offsets to outcomes.
-/

namespace CCD

/-- Python calendar.isleap. -/
def isLeap (y : Nat) : Bool := (y % 4 == 0 && y % 100 != 0) || y % 400 == 0

/-- Python calendar.monthrange(y, m)[1]: length of month m of year y. -/
def monthLen (y m : Nat) : Nat :=
  match m with
  | 1 => 31
  | 2 => if isLeap y then 29 else 28
  | 3 => 31
  | 4 => 30
  | 5 => 31
  | 6 => 30
  | 7 => 31
  | 8 => 31
  | 9 => 30
  | 10 => 31
  | 11 => 30
  | _ => 31

/-- A civil date, as Python datetime.date (fields year, month, day). -/
structure Date where
  y : Nat
  m : Nat
  d : Nat
deriving DecidableEq, Repr

/-- The invariant Python datetime.date enforces at construction. -/
def Date.Valid (a : Date) : Prop :=
  1 ≤ a.y ∧ 1 ≤ a.m ∧ a.m ≤ 12 ∧ 1 ≤ a.d ∧ a.d ≤ monthLen a.y a.m

instance (a : Date) : Decidable a.Valid := by
  unfold Date.Valid; infer_instance

/-- Days in a year strictly before month m (m in 1..12), common-year table. -/
def daysBeforeMonthBase (m : Nat) : Nat :=
  match m with
  | 1 => 0
  | 2 => 31
  | 3 => 59
  | 4 => 90
  | 5 => 120
  | 6 => 151
  | 7 => 181
  | 8 => 212
  | 9 => 243
  | 10 => 273
  | 11 => 304
  | _ => 334

/-- Days in year y strictly before month m (CPython datetime._days_before_month). -/
def daysBeforeMonth (y m : Nat) : Nat :=
  daysBeforeMonthBase m + (if 2 < m && isLeap y then 1 else 0)

/-- Days strictly before year y (CPython datetime._days_before_year). -/
def daysBeforeYear (y : Nat) : Nat :=
  365 * (y - 1) + (y - 1) / 4 - (y - 1) / 100 + (y - 1) / 400

/-- CPython date.toordinal: day 1 is 0001-01-01. -/
def toOrd (a : Date) : Nat :=
  daysBeforeYear a.y + daysBeforeMonth a.y a.m + a.d

/-- The calendar successor of a civil date: Python date + timedelta(days=1). -/
def nextDay (a : Date) : Date :=
  if a.d < monthLen a.y a.m then ⟨a.y, a.m, a.d + 1⟩
  else if a.m < 12 then ⟨a.y, a.m + 1, 1⟩
  else ⟨a.y + 1, 1, 1⟩

/-- The calendar predecessor: Python date - timedelta(days=1).  Unreachable
at the epoch 0001-01-01 in every use below (Python would raise there). -/
def prevDay (a : Date) : Date :=
  if 1 < a.d then ⟨a.y, a.m, a.d - 1⟩
  else if 1 < a.m then ⟨a.y, a.m - 1, monthLen a.y (a.m - 1)⟩
  else if 1 < a.y then ⟨a.y - 1, 12, 31⟩
  else a

/-- Python date + timedelta(days=n), n ≥ 0. -/
def addDays (a : Date) (n : Nat) : Date := nextDay^[n] a

/-- Python date - timedelta(days=n), n ≥ 0. -/
def subDays (a : Date) (n : Nat) : Date := prevDay^[n] a

/-- CPython date.weekday(): Monday is 0 (ordinal 1 is a Monday). -/
def weekday (a : Date) : Nat := (toOrd a + 6) % 7

/-- Python min of two dates (dates compare by their civil triple,
equivalently by ordinal): min(a, b) is a when a ≤ b. -/
def dmin (a b : Date) : Date := if toOrd a ≤ toOrd b then a else b

/-- Python max of two dates: max(a, b) is a when a ≥ b. -/
def dmax (a b : Date) : Date := if toOrd b ≤ toOrd a then a else b

/-- Python date.replace(day=1). -/
def replaceDay1 (a : Date) : Date := ⟨a.y, a.m, 1⟩

theorem valid_mk {y m d : Nat} (hy : 1 ≤ y) (hm1 : 1 ≤ m) (hm2 : m ≤ 12) (hd1 : 1 ≤ d)
    (hd2 : d ≤ monthLen y m) : (Date.mk y m d).Valid := by
  unfold Date.Valid
  dsimp only
  exact ⟨hy, hm1, hm2, hd1, hd2⟩

theorem monthLen_ge (y m : Nat) : 28 ≤ monthLen y m := by
  unfold monthLen
  split <;> first | omega | split <;> omega

theorem monthLen_le (y m : Nat) : monthLen y m ≤ 31 := by
  unfold monthLen
  split <;> first | omega | split <;> omega

theorem isLeap_iff (y : Nat) :
    isLeap y = true ↔ (y % 4 = 0 ∧ y % 100 ≠ 0) ∨ y % 400 = 0 := by
  simp [isLeap, Bool.or_eq_true, Bool.and_eq_true, beq_iff_eq, bne_iff_ne]

theorem daysBeforeYear_succ (y : Nat) (h : 1 ≤ y) :
    daysBeforeYear (y + 1) = daysBeforeYear y + 365 + (if isLeap y then 1 else 0) := by
  obtain ⟨k, rfl⟩ : ∃ k, y = k + 1 := ⟨y - 1, by omega⟩
  have e4 := Nat.succ_div k 4
  have e100 := Nat.succ_div k 100
  have e400 := Nat.succ_div k 400
  have hiff := isLeap_iff (k + 1)
  have hd4 : (4 ∣ k + 1) ↔ (k + 1) % 4 = 0 := by omega
  have hd100 : (100 ∣ k + 1) ↔ (k + 1) % 100 = 0 := by omega
  have hd400 : (400 ∣ k + 1) ↔ (k + 1) % 400 = 0 := by omega
  unfold daysBeforeYear
  simp only [Nat.add_sub_cancel]
  rw [e4, e100, e400]
  by_cases h4 : 4 ∣ k + 1
  · by_cases h100 : 100 ∣ k + 1
    · by_cases h400 : 400 ∣ k + 1
      · have hL : isLeap (k + 1) = true := hiff.mpr (Or.inr (hd400.mp h400))
        rw [if_pos h4, if_pos h100, if_pos h400, if_pos hL]
        omega
      · have hL : ¬isLeap (k + 1) = true := by
          rw [hiff]
          rintro (⟨ha, hb⟩ | hc)
          · exact hb (hd100.mp h100)
          · exact h400 (hd400.mpr hc)
        rw [if_pos h4, if_pos h100, if_neg h400, if_neg hL]
        omega
    · by_cases h400 : 400 ∣ k + 1
      · exact absurd (dvd_trans (by norm_num) h400) h100
      · have hL : isLeap (k + 1) = true :=
          hiff.mpr (Or.inl ⟨hd4.mp h4, fun c => h100 (hd100.mpr c)⟩)
        rw [if_pos h4, if_neg h100, if_neg h400, if_pos hL]
        omega
  · have h400 : ¬400 ∣ k + 1 := fun c => h4 (dvd_trans (by norm_num) c)
    have hL : ¬isLeap (k + 1) = true := by
      rw [hiff]
      rintro (⟨ha, hb⟩ | hc)
      · exact h4 (hd4.mpr ha)
      · exact h400 (hd400.mpr hc)
    by_cases h100 : 100 ∣ k + 1
    · rw [if_neg h4, if_pos h100, if_neg h400, if_neg hL]
      omega
    · rw [if_neg h4, if_neg h100, if_neg h400, if_neg hL]
      omega

theorem daysBeforeMonth_succ (y m : Nat) (h1 : 1 ≤ m) (h2 : m ≤ 11) :
    daysBeforeMonth y (m + 1) = daysBeforeMonth y m + monthLen y m := by
  interval_cases m <;> by_cases hl : isLeap y = true <;>
    simp [daysBeforeMonth, daysBeforeMonthBase, monthLen, hl]

theorem nextDay_valid {a : Date} (h : a.Valid) : (nextDay a).Valid := by
  obtain ⟨h1, h2, h3, h4, h5⟩ := h
  have g1 := monthLen_ge a.y (a.m + 1)
  have g2 := monthLen_ge (a.y + 1) 1
  unfold nextDay
  split
  · exact ⟨h1, h2, h3, by dsimp only; omega, by dsimp only; omega⟩
  · split
    · exact ⟨h1, by dsimp only; omega, by dsimp only; omega, by dsimp only; omega,
        by dsimp only; omega⟩
    · exact ⟨by dsimp only; omega, by dsimp only; omega, by dsimp only; omega,
        by dsimp only; omega, by dsimp only; omega⟩

theorem toOrd_nextDay {a : Date} (h : a.Valid) : toOrd (nextDay a) = toOrd a + 1 := by
  obtain ⟨h1, h2, h3, h4, h5⟩ := h
  unfold nextDay
  split
  · simp only [toOrd]; omega
  · rename_i hd
    split
    · rename_i hm
      have hstep := daysBeforeMonth_succ a.y a.m h2 (by omega)
      simp only [toOrd]
      omega
    · rename_i hm
      have hm12 : a.m = 12 := by omega
      have hd31 : a.d = 31 := by
        rw [hm12] at h5 hd; simp [monthLen] at h5 hd; omega
      have hy := daysBeforeYear_succ a.y h1
      simp only [toOrd]
      rw [hm12, hd31]
      by_cases hl : isLeap a.y = true
      · rw [if_pos hl] at hy
        simp only [daysBeforeMonth, daysBeforeMonthBase, hl, Bool.and_true]
        norm_num
        omega
      · rw [if_neg hl] at hy
        rw [Bool.not_eq_true] at hl
        simp only [daysBeforeMonth, daysBeforeMonthBase, hl, Bool.and_false]
        norm_num
        omega

theorem prevDay_valid {a : Date} (h : a.Valid) : (prevDay a).Valid := by
  obtain ⟨h1, h2, h3, h4, h5⟩ := h
  have g1 := monthLen_ge a.y (a.m - 1)
  have g2 : monthLen (a.y - 1) 12 = 31 := by simp [monthLen]
  unfold prevDay
  split
  · exact ⟨h1, h2, h3, by dsimp only; omega, by dsimp only; omega⟩
  · split
    · exact ⟨h1, by dsimp only; omega, by dsimp only; omega, by dsimp only; omega,
        by dsimp only; omega⟩
    · split
      · exact ⟨by dsimp only; omega, by dsimp only; omega, by dsimp only; omega,
          by dsimp only; omega, by dsimp only; omega⟩
      · exact ⟨h1, h2, h3, h4, h5⟩

theorem toOrd_prevDay {a : Date} (h : a.Valid) (h2 : 2 ≤ toOrd a) :
    toOrd (prevDay a) = toOrd a - 1 := by
  obtain ⟨hy, hm1, hm2, hd1, hd2⟩ := h
  unfold prevDay
  split
  · simp only [toOrd]; omega
  · split
    · rename_i hdle hmgt
      have hd : a.d = 1 := by omega
      have hstep := daysBeforeMonth_succ a.y (a.m - 1) (by omega) (by omega)
      have hm1eq : a.m - 1 + 1 = a.m := by omega
      rw [hm1eq] at hstep
      simp only [toOrd]
      omega
    · split
      · rename_i hdle hmle hygt
        have hd : a.d = 1 := by omega
        have hm : a.m = 1 := by omega
        have hy1 : a.y - 1 + 1 = a.y := by omega
        have hstep := daysBeforeYear_succ (a.y - 1) (by omega)
        rw [hy1] at hstep
        simp only [toOrd]
        rw [hd, hm]
        by_cases hl : isLeap (a.y - 1) = true
        · rw [if_pos hl] at hstep
          simp only [daysBeforeMonth, daysBeforeMonthBase, monthLen, hl, Bool.and_true]
          norm_num
          omega
        · rw [if_neg hl] at hstep
          rw [Bool.not_eq_true] at hl
          simp only [daysBeforeMonth, daysBeforeMonthBase, monthLen, hl, Bool.and_false]
          norm_num
          omega
      · rename_i hdle hmle hyle
        have hd : a.d = 1 := by omega
        have hm : a.m = 1 := by omega
        have hyy : a.y = 1 := by omega
        simp [toOrd, hd, hm, hyy, daysBeforeYear, daysBeforeMonth, daysBeforeMonthBase] at h2

theorem addDays_valid {a : Date} (h : a.Valid) (n : Nat) : (addDays a n).Valid := by
  induction n generalizing a with
  | zero => simpa [addDays] using h
  | succ k ih =>
    rw [addDays, Function.iterate_succ_apply]
    exact ih (nextDay_valid h)

theorem toOrd_addDays {a : Date} (h : a.Valid) (n : Nat) :
    toOrd (addDays a n) = toOrd a + n := by
  induction n generalizing a with
  | zero => simp [addDays]
  | succ k ih =>
    rw [addDays, Function.iterate_succ_apply]
    have := ih (nextDay_valid h)
    rw [addDays] at this
    rw [this, toOrd_nextDay h]
    omega

theorem addDays_succ (a : Date) (n : Nat) : addDays a (n + 1) = nextDay (addDays a n) := by
  rw [addDays, addDays, Function.iterate_succ_apply']

theorem toOrd_pos {a : Date} (h : a.Valid) : 1 ≤ toOrd a := by
  obtain ⟨h1, h2, h3, h4, h5⟩ := h
  unfold toOrd
  omega

theorem subDays_spec {a : Date} (h : a.Valid) (n : Nat) (hn : n + 1 ≤ toOrd a) :
    (subDays a n).Valid ∧ toOrd (subDays a n) = toOrd a - n := by
  induction n generalizing a with
  | zero => simpa [subDays] using h
  | succ k ih =>
    rw [subDays, Function.iterate_succ_apply]
    have hv : (prevDay a).Valid := prevDay_valid h
    have ho : toOrd (prevDay a) = toOrd a - 1 := toOrd_prevDay h (by omega)
    have := ih hv (by omega)
    rw [subDays] at this
    refine ⟨this.1, ?_⟩
    rw [this.2, ho]
    omega

/-! ### String formatting (Python percent-format and zero-padded f-strings) -/

/-- Zero-pad a decimal string to width w. -/
def padZero (w : Nat) (s : String) : String :=
  String.mk (List.replicate (w - s.length) '0') ++ s

/-- Python format spec 04d, also the strftime directive %Y for years 1000-9999. -/
def fmt04 (n : Nat) : String := padZero 4 (toString n)

/-- Python format spec 02d, also the strftime directives %m and %d. -/
def fmt02 (n : Nat) : String := padZero 2 (toString n)

/-- Python strftime("%Y-%m-%d") on a date. -/
def fmtYMD (a : Date) : String := fmt04 a.y ++ "-" ++ fmt02 a.m ++ "-" ++ fmt02 a.d

/-! ### ISO calendar (CPython datetime internals) -/

/-- CPython datetime._isoweek1monday: ordinal of the Monday starting ISO week
1 of year y. -/
def isoWeek1Monday (y : Nat) : Int :=
  let firstday : Int := toOrd ⟨y, 1, 1⟩
  let firstweekday := (firstday + 6) % 7
  let week1monday := firstday - firstweekday
  if 3 < firstweekday then week1monday + 7 else week1monday

/-- CPython date.isocalendar, returning (ISO year, ISO week number).
Python divmod floor-divides, hence Int.fdiv. -/
def isoYearWeek (a : Date) : Nat × Nat :=
  let today : Int := toOrd a
  let week := Int.fdiv (today - isoWeek1Monday a.y) 7
  if week < 0 then
    let week2 := Int.fdiv (today - isoWeek1Monday (a.y - 1)) 7
    (a.y - 1, (week2 + 1).toNat)
  else if 52 ≤ week ∧ isoWeek1Monday (a.y + 1) ≤ today then
    (a.y + 1, 1)
  else (a.y, (week + 1).toNat)

/-- The week component of date.isocalendar(), as used by week_windows. -/
def isoWeek (a : Date) : Nat := (isoYearWeek a).2

/-! ### Window generators (src/chicago_crime_downloader/soql.py)

Each Python while-loop is embedded with an explicit fuel argument; the
top-level entry supplies fuel one larger than the ordinal span, which the
coverage theorems show is never exhausted before the loop guard fails. -/

/-- One window triple (start date, end date, window id). -/
abbrev Window := Date × Date × String

/-- Loop of day_windows: while cur <= end, emit (cur, cur, cur.strftime("%Y-%m-%d")). -/
def dayLoop (e : Date) : Nat → Date → List Window
  | 0, _ => []
  | fuel + 1, cur =>
    if toOrd cur ≤ toOrd e then (cur, cur, fmtYMD cur) :: dayLoop e fuel (nextDay cur)
    else []

/-- soql.day_windows. -/
def day_windows (s e : Date) : List Window := dayLoop e (toOrd e + 1 - toOrd s) s

/-- Loop of week_windows: while cur <= end, emit
(cur, min(cur + 6 days, end), f-string of calendar year and ISO week),
then advance cur by 7 days. -/
def weekLoop (e : Date) : Nat → Date → List Window
  | 0, _ => []
  | fuel + 1, cur =>
    if toOrd cur ≤ toOrd e then
      (cur, dmin (addDays cur 6) e,
        fmt04 cur.y ++ "-W" ++ fmt02 (isoWeek cur)) :: weekLoop e fuel (addDays cur 7)
    else []

/-- soql.week_windows: cur starts at start - timedelta(days=start.weekday()). -/
def week_windows (s e : Date) : List Window :=
  let cur := subDays s (weekday s)
  weekLoop e (toOrd e + 1 - toOrd cur) cur

/-- Loop of month_windows: while cur <= last_end, with
nm = (cur + 32 days).replace(day=1), cur_end = min-with-end of (nm - 1 day),
emit (max(cur, start), cur_end, f-string 04d year, 02d month), cur = nm. -/
def monthLoop (s e last_end : Date) : Nat → Date → List Window
  | 0, _ => []
  | fuel + 1, cur =>
    if toOrd cur ≤ toOrd last_end then
      let nm := replaceDay1 (addDays cur 32)
      let cur_end0 := prevDay nm
      let cur_end := if toOrd e < toOrd cur_end0 then e else cur_end0
      (dmax cur s, cur_end, fmt04 cur.y ++ "-" ++ fmt02 cur.m) ::
        monthLoop s e last_end fuel nm
    else []

/-- soql.month_windows: cur = date(start.year, start.month, 1);
last_end = (date(end.year, end.month, 1) + 32 days).replace(day=1) - 1 day. -/
def month_windows (s e : Date) : List Window :=
  let cur : Date := ⟨s.y, s.m, 1⟩
  let next_m := replaceDay1 (addDays ⟨e.y, e.m, 1⟩ 32)
  let last_end := prevDay next_m
  monthLoop s e last_end (toOrd last_end + 1 - toOrd cur) cur

/-! ### Exact tiling of a date span by windows

SpanFrom e s ws: the windows ws, in order, tile the days from s to e
exactly: each window starts where the previous one stopped, ends inside the
span, and the last one ends exactly at e.  This packages ordering,
non-overlap, gap-freedom and exact coverage in one induction-friendly
predicate. -/

def SpanFrom (e : Date) : Date → List Window → Prop
  | s, [] => toOrd s = toOrd e + 1
  | s, w :: rest =>
      w.1 = s ∧ w.2.1.Valid ∧ toOrd s ≤ toOrd w.2.1 ∧ toOrd w.2.1 ≤ toOrd e ∧
      SpanFrom e (nextDay w.2.1) rest

instance spanFromDec (e : Date) : ∀ (s : Date) (ws : List Window), Decidable (SpanFrom e s ws)
  | _, [] => by unfold SpanFrom; infer_instance
  | _, w :: rest => by
      unfold SpanFrom
      have := spanFromDec e (nextDay w.2.1) rest
      infer_instance

theorem spanFrom_bounds {e : Date} :
    ∀ {s : Date} {ws : List Window}, SpanFrom e s ws →
      ∀ w ∈ ws, toOrd s ≤ toOrd w.1 ∧ toOrd w.1 ≤ toOrd w.2.1 ∧ toOrd w.2.1 ≤ toOrd e := by
  intro s ws
  induction ws generalizing s with
  | nil => intro _ w hw; cases hw
  | cons w rest ih =>
    intro h w2 hw2
    obtain ⟨h1, h2, h3, h4, h5⟩ := h
    rcases List.mem_cons.mp hw2 with rfl | hw2
    · exact ⟨by rw [h1], by rw [h1]; exact h3, h4⟩
    · have hb := ih h5 w2 hw2
      have hord : toOrd (nextDay w.2.1) = toOrd w.2.1 + 1 := toOrd_nextDay h2
      exact ⟨by omega, hb.2.1, hb.2.2⟩

theorem spanFrom_chain {e : Date} :
    ∀ {s : Date} {ws : List Window}, SpanFrom e s ws →
      List.Chain' (fun a b => toOrd b.1 = toOrd a.2.1 + 1) ws := by
  intro s ws
  induction ws generalizing s with
  | nil => intro _; exact List.chain'_nil
  | cons w rest ih =>
    intro h
    obtain ⟨h1, h2, h3, h4, h5⟩ := h
    cases rest with
    | nil => exact List.chain'_singleton w
    | cons w2 rest2 =>
      refine List.Chain'.cons ?_ (ih h5)
      obtain ⟨h21, _, _, _, _⟩ := h5
      rw [h21, toOrd_nextDay h2]

theorem spanFrom_ne_nil {e s : Date} {ws : List Window}
    (h : SpanFrom e s ws) (hle : toOrd s ≤ toOrd e) : ws ≠ [] := by
  intro hnil
  subst hnil
  unfold SpanFrom at h
  omega

theorem spanFrom_head {e s : Date} {w : Window} {rest : List Window}
    (h : SpanFrom e s (w :: rest)) : w.1 = s := h.1

theorem spanFrom_last {e : Date} :
    ∀ {s : Date} {ws : List Window}, SpanFrom e s ws →
      ∀ wl, ws.getLast? = some wl → toOrd wl.2.1 = toOrd e := by
  intro s ws
  induction ws generalizing s with
  | nil => intro _ wl hwl; cases hwl
  | cons w rest ih =>
    intro h wl hwl
    obtain ⟨h1, h2, h3, h4, h5⟩ := h
    cases rest with
    | nil =>
      simp only [List.getLast?_singleton, Option.some.injEq] at hwl
      subst hwl
      unfold SpanFrom at h5
      have := toOrd_nextDay h2
      omega
    | cons w2 rest2 =>
      rw [List.getLast?_cons_cons] at hwl
      exact ih h5 wl hwl

/-! ### Coverage of day_windows -/

theorem dayLoop_nil {e cur : Date} (h : ¬toOrd cur ≤ toOrd e) :
    ∀ fuel, dayLoop e fuel cur = [] := by
  intro fuel
  cases fuel with
  | zero => rfl
  | succ k => simp [dayLoop, h]

theorem dayLoop_spanFrom (e : Date) :
    ∀ (fuel : Nat) (cur : Date), cur.Valid → toOrd cur ≤ toOrd e + 1 →
      toOrd e + 1 - toOrd cur ≤ fuel → SpanFrom e cur (dayLoop e fuel cur) := by
  intro fuel
  induction fuel with
  | zero =>
    intro cur _ hle hfuel
    have : toOrd cur = toOrd e + 1 := by omega
    simpa [dayLoop, SpanFrom] using this
  | succ k ih =>
    intro cur hv hle hfuel
    by_cases hg : toOrd cur ≤ toOrd e
    · rw [dayLoop, if_pos hg]
      refine ⟨rfl, hv, le_refl _, hg, ?_⟩
      have hnv := nextDay_valid hv
      have hno := toOrd_nextDay hv
      exact ih (nextDay cur) hnv (by omega) (by omega)
    · rw [dayLoop, if_neg hg]
      unfold SpanFrom
      omega

theorem day_windows_spanFrom {s e : Date} (hs : s.Valid) (hle : toOrd s ≤ toOrd e) :
    SpanFrom e s (day_windows s e) :=
  dayLoop_spanFrom e _ s hs (by omega) (by omega)

/-! ### Coverage of week_windows -/

theorem weekLoop_nil {e cur : Date} (h : ¬toOrd cur ≤ toOrd e) :
    ∀ fuel, weekLoop e fuel cur = [] := by
  intro fuel
  cases fuel with
  | zero => rfl
  | succ k => simp [weekLoop, h]

theorem weekLoop_spanFrom (e : Date) (he : e.Valid) :
    ∀ (fuel : Nat) (cur : Date), cur.Valid → toOrd cur ≤ toOrd e + 1 →
      toOrd e + 1 - toOrd cur ≤ fuel → SpanFrom e cur (weekLoop e fuel cur) := by
  intro fuel
  induction fuel with
  | zero =>
    intro cur _ hle hfuel
    have : toOrd cur = toOrd e + 1 := by omega
    simpa [weekLoop, SpanFrom] using this
  | succ k ih =>
    intro cur hv hle hfuel
    by_cases hg : toOrd cur ≤ toOrd e
    · rw [weekLoop, if_pos hg]
      have hv6 : (addDays cur 6).Valid := addDays_valid hv 6
      have ho6 : toOrd (addDays cur 6) = toOrd cur + 6 := toOrd_addDays hv 6
      have hv7 : (addDays cur 7).Valid := addDays_valid hv 7
      have ho7 : toOrd (addDays cur 7) = toOrd cur + 7 := toOrd_addDays hv 7
      by_cases hm : toOrd (addDays cur 6) ≤ toOrd e
      · -- full week fits: end is cur + 6, successor is cur + 7
        refine ⟨rfl, ?_, ?_, ?_, ?_⟩
        · dsimp only; rw [dmin, if_pos hm]; exact hv6
        · dsimp only; rw [dmin, if_pos hm]; omega
        · dsimp only; rw [dmin, if_pos hm]; exact hm
        · dsimp only
          rw [dmin, if_pos hm]
          have hstep : nextDay (addDays cur 6) = addDays cur 7 := by
            have hs6 := addDays_succ cur 6
            norm_num at hs6
            exact hs6.symm
          rw [hstep]
          exact ih (addDays cur 7) hv7 (by omega) (by omega)
      · -- final clipped week: end is e, loop stops next round
        refine ⟨rfl, ?_, ?_, ?_, ?_⟩
        · dsimp only; rw [dmin, if_neg hm]; exact he
        · dsimp only; rw [dmin, if_neg hm]; exact hg
        · dsimp only; rw [dmin, if_neg hm]
        · dsimp only
          rw [dmin, if_neg hm]
          rw [weekLoop_nil (by omega)]
          unfold SpanFrom
          rw [toOrd_nextDay he]
    · rw [weekLoop, if_neg hg]
      unfold SpanFrom
      omega

/-- Week windows tile exactly the span from the Monday on or before start. -/
theorem week_windows_spanFrom {s e : Date} (hs : s.Valid) (he : e.Valid)
    (hle : toOrd s ≤ toOrd e) :
    SpanFrom e (subDays s (weekday s)) (week_windows s e) := by
  have hwd : weekday s + 1 ≤ toOrd s := by
    have h1 := toOrd_pos hs
    have h2 : (toOrd s + 6) % 7 ≤ toOrd s - 1 := by omega
    unfold weekday
    omega
  obtain ⟨hmv, hmo⟩ := subDays_spec hs (weekday s) hwd
  unfold week_windows
  exact weekLoop_spanFrom e he _ _ hmv (by omega) (by omega)

/-- The Monday alignment: week_windows starts its first window at
start - weekday(start), which is on or before start, and is a Monday. -/
theorem week_alignment {s : Date} (hs : s.Valid) :
    toOrd (subDays s (weekday s)) = toOrd s - weekday s ∧
      weekday (subDays s (weekday s)) = 0 := by
  have hwd : weekday s + 1 ≤ toOrd s := by
    have h1 := toOrd_pos hs
    have h2 : (toOrd s + 6) % 7 ≤ toOrd s - 1 := by omega
    unfold weekday
    omega
  obtain ⟨hmv, hmo⟩ := subDays_spec hs (weekday s) hwd
  refine ⟨hmo, ?_⟩
  unfold weekday at *
  omega

/-! ### Coverage of month_windows -/

/-- The first day of the month after (y, m). -/
def fonm (y m : Nat) : Date := if m < 12 then ⟨y, m + 1, 1⟩ else ⟨y + 1, 1, 1⟩

theorem addDays_within (y m : Nat) :
    ∀ (k d : Nat), 1 ≤ d → d + k ≤ monthLen y m → addDays ⟨y, m, d⟩ k = ⟨y, m, d + k⟩ := by
  intro k
  induction k with
  | zero => intro d h1 h2; simp [addDays]
  | succ n ih =>
    intro d h1 h2
    have hnd : nextDay ⟨y, m, d⟩ = ⟨y, m, d + 1⟩ := by
      unfold nextDay
      dsimp only
      rw [if_pos (show d < monthLen y m by omega)]
    rw [addDays, Function.iterate_succ_apply, hnd]
    have hrec := ih (d + 1) (by omega) (by omega)
    rw [addDays] at hrec
    rw [hrec]
    have : d + 1 + n = d + (n + 1) := by omega
    rw [this]

theorem nextDay_monthEnd (y m : Nat) (hm2 : m ≤ 12) :
    nextDay ⟨y, m, monthLen y m⟩ = fonm y m := by
  unfold nextDay fonm
  dsimp only
  rw [if_neg (show ¬monthLen y m < monthLen y m by omega)]

theorem fonm_eq (y m : Nat) (hm1 : 1 ≤ m) (hm2 : m ≤ 12) :
    replaceDay1 (addDays ⟨y, m, 1⟩ 32) = fonm y m := by
  have hg := monthLen_ge y m
  have hl := monthLen_le y m
  have hsplit : (32 : Nat) = (33 - monthLen y m) + (monthLen y m - 1) := by omega
  rw [addDays, hsplit, Function.iterate_add_apply]
  have h1 : nextDay^[monthLen y m - 1] ⟨y, m, 1⟩ = ⟨y, m, monthLen y m⟩ := by
    have hw := addDays_within y m (monthLen y m - 1) 1 (le_refl 1) (by omega)
    rw [addDays] at hw
    rw [hw]
    have : 1 + (monthLen y m - 1) = monthLen y m := by omega
    rw [this]
  rw [h1]
  have hr : 33 - monthLen y m = (32 - monthLen y m) + 1 := by omega
  rw [hr, Function.iterate_succ_apply, nextDay_monthEnd y m hm2]
  unfold fonm
  by_cases hm : m < 12
  · rw [if_pos hm]
    have hw := addDays_within y (m + 1) (32 - monthLen y m) 1 (le_refl 1)
      (by have := monthLen_ge y (m + 1); omega)
    rw [addDays] at hw
    rw [hw]
    rfl
  · rw [if_neg hm]
    have hw := addDays_within (y + 1) 1 (32 - monthLen y m) 1 (le_refl 1)
      (by have := monthLen_ge (y + 1) 1; omega)
    rw [addDays] at hw
    rw [hw]
    rfl

theorem prevDay_fonm (y m : Nat) (hy : 1 ≤ y) (hm1 : 1 ≤ m) (hm2 : m ≤ 12) :
    prevDay (fonm y m) = ⟨y, m, monthLen y m⟩ := by
  by_cases hm : m < 12
  · have h1 : fonm y m = ⟨y, m + 1, 1⟩ := by unfold fonm; rw [if_pos hm]
    rw [h1]
    unfold prevDay
    dsimp only
    rw [if_neg (by omega), if_pos (by omega)]
    have : m + 1 - 1 = m := by omega
    rw [this]
  · have hm12 : m = 12 := by omega
    have h1 : fonm y m = ⟨y + 1, 1, 1⟩ := by unfold fonm; rw [if_neg hm]
    rw [h1]
    unfold prevDay
    dsimp only
    rw [if_neg (by omega), if_neg (by omega), if_pos (by omega)]
    have h2 : y + 1 - 1 = y := by omega
    have h3 : monthLen y 12 = 31 := by simp [monthLen]
    rw [h2, hm12, h3]

theorem toOrd_fonm (y m : Nat) (hy : 1 ≤ y) (hm1 : 1 ≤ m) (hm2 : m ≤ 12) :
    toOrd (fonm y m) = toOrd ⟨y, m, 1⟩ + monthLen y m := by
  have hvalid : (Date.mk y m (monthLen y m)).Valid :=
    valid_mk hy hm1 hm2 (by have := monthLen_ge y m; omega) (le_refl _)
  rw [← nextDay_monthEnd y m hm2, toOrd_nextDay hvalid]
  simp only [toOrd]
  omega

/-- Linear index of a calendar month, used to order first-of-month dates. -/
def mIdx (y m : Nat) : Nat := 12 * y + m

theorem toOrd_month_mono :
    ∀ (k y m y2 m2 : Nat), 1 ≤ y → 1 ≤ m → m ≤ 12 → 1 ≤ y2 → 1 ≤ m2 → m2 ≤ 12 →
      mIdx y2 m2 = mIdx y m + k →
      toOrd ⟨y, m, 1⟩ + 28 * k ≤ toOrd ⟨y2, m2, 1⟩ ∧
        toOrd ⟨y2, m2, 1⟩ ≤ toOrd ⟨y, m, 1⟩ + 31 * k := by
  intro k
  induction k with
  | zero =>
    intro y m y2 m2 hy hm1 hm2 hy2 hm21 hm22 hidx
    have hc : y2 = y ∧ m2 = m := by unfold mIdx at hidx; omega
    rcases hc with ⟨e1, e2⟩
    subst e1
    subst e2
    omega
  | succ n ih =>
    intro y m y2 m2 hy hm1 hm2 hy2 hm21 hm22 hidx
    have hg := monthLen_ge y m
    have hl := monthLen_le y m
    by_cases hm : m < 12
    · have hfm : fonm y m = ⟨y, m + 1, 1⟩ := by unfold fonm; rw [if_pos hm]
      have hord : toOrd ⟨y, m + 1, 1⟩ = toOrd ⟨y, m, 1⟩ + monthLen y m := by
        rw [← hfm, toOrd_fonm y m hy hm1 hm2]
      have hstep := ih y (m + 1) y2 m2 hy (by omega) (by omega) hy2 hm21 hm22
        (by unfold mIdx at *; omega)
      omega
    · have hm12 : m = 12 := by omega
      subst hm12
      have hfm : fonm y 12 = ⟨y + 1, 1, 1⟩ := by unfold fonm; rw [if_neg hm]
      have hord : toOrd ⟨y + 1, 1, 1⟩ = toOrd ⟨y, 12, 1⟩ + monthLen y 12 := by
        rw [← hfm, toOrd_fonm y 12 hy (by omega) (le_refl _)]
      have hstep := ih (y + 1) 1 y2 m2 (by omega) (le_refl _) (by omega) hy2 hm21 hm22
        (by unfold mIdx at *; omega)
      omega

/-- Ordinal of a date against the first of its month. -/
theorem toOrd_vs_first {a : Date} (h : a.Valid) :
    toOrd ⟨a.y, a.m, 1⟩ + a.d = toOrd a + 1 := by
  obtain ⟨h1, h2, h3, h4, h5⟩ := h
  simp only [toOrd]
  omega

theorem monthLoop_nil {s e last_end cur : Date} (h : ¬toOrd cur ≤ toOrd last_end) :
    ∀ fuel, monthLoop s e last_end fuel cur = [] := by
  intro fuel
  cases fuel with
  | zero => rfl
  | succ k => simp [monthLoop, h]

theorem monthLoop_cons {s e last_end cur : Date} {fuel : Nat}
    (h : toOrd cur ≤ toOrd last_end) :
    monthLoop s e last_end (fuel + 1) cur =
      (dmax cur s,
        (if toOrd e < toOrd (prevDay (replaceDay1 (addDays cur 32))) then e
         else prevDay (replaceDay1 (addDays cur 32))),
        fmt04 cur.y ++ "-" ++ fmt02 cur.m) ::
        monthLoop s e last_end fuel (replaceDay1 (addDays cur 32)) := by
  rw [monthLoop]
  simp only [if_pos h]

theorem toOrd_month_mono_strict :
    ∀ (k y m y2 m2 : Nat), 1 ≤ y → 1 ≤ m → m ≤ 12 → 1 ≤ y2 → 1 ≤ m2 → m2 ≤ 12 →
      mIdx y2 m2 = mIdx y m + (k + 1) →
      toOrd ⟨y, m, 1⟩ + monthLen y m + 28 * k ≤ toOrd ⟨y2, m2, 1⟩ := by
  intro k y m y2 m2 hy hm1 hm2 hy2 hm21 hm22 hidx
  by_cases hm : m < 12
  · have hfm : fonm y m = ⟨y, m + 1, 1⟩ := by unfold fonm; rw [if_pos hm]
    have hord : toOrd ⟨y, m + 1, 1⟩ = toOrd ⟨y, m, 1⟩ + monthLen y m := by
      rw [← hfm, toOrd_fonm y m hy hm1 hm2]
    have hmono := toOrd_month_mono k y (m + 1) y2 m2 hy (by omega) (by omega) hy2 hm21 hm22
      (by unfold mIdx at *; omega)
    omega
  · have hm12 : m = 12 := by omega
    subst hm12
    have hfm : fonm y 12 = ⟨y + 1, 1, 1⟩ := by unfold fonm; rw [if_neg hm]
    have hord : toOrd ⟨y + 1, 1, 1⟩ = toOrd ⟨y, 12, 1⟩ + monthLen y 12 := by
      rw [← hfm, toOrd_fonm y 12 hy (by omega) (le_refl _)]
    have hmono := toOrd_month_mono k (y + 1) 1 y2 m2 (by omega) (le_refl _) (by omega)
      hy2 hm21 hm22 (by unfold mIdx at *; omega)
    omega

theorem monthLoop_spanFrom (s e : Date) (hs : s.Valid) (he : e.Valid)
    (hse : toOrd s ≤ toOrd e) :
    ∀ (fuel y m : Nat), 1 ≤ y → 1 ≤ m → m ≤ 12 →
      mIdx s.y s.m ≤ mIdx y m → mIdx y m ≤ mIdx e.y e.m →
      mIdx e.y e.m + 1 - mIdx y m ≤ fuel →
      SpanFrom e (dmax ⟨y, m, 1⟩ s)
        (monthLoop s e ⟨e.y, e.m, monthLen e.y e.m⟩ fuel ⟨y, m, 1⟩) := by
  intro fuel
  induction fuel with
  | zero =>
    intro y m hy hm1 hm2 hi1 hi2 hfuel
    exact absurd hi2 (by unfold mIdx at *; omega)
  | succ f ih =>
    intro y m hy hm1 hm2 hi1 hi2 hfuel
    replace hi1 : 12 * s.y + s.m ≤ 12 * y + m := hi1
    replace hi2 : 12 * y + m ≤ 12 * e.y + e.m := hi2
    replace hfuel : 12 * e.y + e.m + 1 - (12 * y + m) ≤ f + 1 := hfuel
    have hg := monthLen_ge y m
    have hl := monthLen_le y m
    have hgE := monthLen_ge e.y e.m
    have hlE := monthLen_le e.y e.m
    have hE1 := toOrd_vs_first he
    have hS1 := toOrd_vs_first hs
    have hed1 : 1 ≤ e.d := he.2.2.2.1
    have hed2 : e.d ≤ monthLen e.y e.m := he.2.2.2.2
    have hsd1 : 1 ≤ s.d := hs.2.2.2.1
    have hsd2 : s.d ≤ monthLen s.y s.m := hs.2.2.2.2
    have hsm1 : 1 ≤ s.m := hs.2.1
    have hsm2 : s.m ≤ 12 := hs.2.2.1
    have hem1 : 1 ≤ e.m := he.2.1
    have hem2 : e.m ≤ 12 := he.2.2.1
    have hmono := toOrd_month_mono (12 * e.y + e.m - (12 * y + m)) y m e.y e.m
      hy hm1 hm2 he.1 he.2.1 he.2.2.1 (by unfold mIdx; omega)
    have hlastE : toOrd (⟨e.y, e.m, monthLen e.y e.m⟩ : Date) =
        toOrd ⟨e.y, e.m, 1⟩ + monthLen e.y e.m - 1 := by
      simp only [toOrd]; omega
    have hguard : toOrd (⟨y, m, 1⟩ : Date) ≤ toOrd ⟨e.y, e.m, monthLen e.y e.m⟩ := by
      omega
    rw [monthLoop_cons hguard, fonm_eq y m hm1 hm2, prevDay_fonm y m hy hm1 hm2]
    have hfonm_ord := toOrd_fonm y m hy hm1 hm2
    have hend0_ord : toOrd (⟨y, m, monthLen y m⟩ : Date) =
        toOrd ⟨y, m, 1⟩ + monthLen y m - 1 := by
      simp only [toOrd]; omega
    have hs_le_end0 : toOrd s ≤ toOrd ⟨y, m, monthLen y m⟩ := by
      by_cases hcase : 12 * s.y + s.m = 12 * y + m
      · have hcc : s.y = y ∧ s.m = m := by omega
        rcases hcc with ⟨e1, e2⟩
        rw [e1, e2] at hS1 hsd2
        omega
      · have hstrict := toOrd_month_mono_strict (12 * y + m - (12 * s.y + s.m) - 1)
          s.y s.m y m hs.1 hs.2.1 hs.2.2.1 hy hm1 hm2 (by unfold mIdx; omega)
        have hlenS := monthLen_le s.y s.m
        omega
    by_cases hlastm : 12 * y + m = 12 * e.y + e.m
    · -- the window of the final month: its end has the ordinal of e
      have hcc : y = e.y ∧ m = e.m := by omega
      rcases hcc with ⟨e1, e2⟩
      subst e1
      subst e2
      have hnilguard : ¬toOrd (fonm e.y e.m) ≤ toOrd ⟨e.y, e.m, monthLen e.y e.m⟩ := by
        omega
      by_cases hclip : toOrd e < toOrd ⟨e.y, e.m, monthLen e.y e.m⟩
      · rw [if_pos hclip]
        refine ⟨rfl, he, ?_, ?_, ?_⟩
        · dsimp only
          unfold dmax
          split <;> omega
        · dsimp only
          exact le_refl _
        · dsimp only
          rw [monthLoop_nil hnilguard]
          unfold SpanFrom
          rw [toOrd_nextDay he]
      · rw [if_neg hclip]
        have hvend : (⟨e.y, e.m, monthLen e.y e.m⟩ : Date).Valid :=
          valid_mk he.1 he.2.1 he.2.2.1 (by omega) (le_refl _)
        refine ⟨rfl, hvend, ?_, ?_, ?_⟩
        · dsimp only
          unfold dmax
          split <;> omega
        · dsimp only
          omega
        · dsimp only
          rw [monthLoop_nil hnilguard]
          unfold SpanFrom
          rw [toOrd_nextDay hvend]
          omega
    · -- an intermediate month: the window covers the whole month
      have hlt : 12 * y + m < 12 * e.y + e.m := by omega
      have hstrict := toOrd_month_mono_strict (12 * e.y + e.m - (12 * y + m) - 1) y m e.y e.m
        hy hm1 hm2 he.1 he.2.1 he.2.2.1 (by unfold mIdx; omega)
      have hnoclip : ¬toOrd e < toOrd ⟨y, m, monthLen y m⟩ := by omega
      rw [if_neg hnoclip]
      have hvend0 : (⟨y, m, monthLen y m⟩ : Date).Valid :=
        valid_mk hy hm1 hm2 (by omega) (le_refl _)
      refine ⟨rfl, hvend0, ?_, ?_, ?_⟩
      · dsimp only
        unfold dmax
        split <;> omega
      · dsimp only
        omega
      · dsimp only
        rw [nextDay_monthEnd y m hm2]
        by_cases hm12 : m < 12
        · have hfm : fonm y m = ⟨y, m + 1, 1⟩ := by unfold fonm; rw [if_pos hm12]
          rw [hfm]
          have hdm : dmax (⟨y, m + 1, 1⟩ : Date) s = ⟨y, m + 1, 1⟩ := by
            unfold dmax
            rw [if_pos (by rw [← hfm, hfonm_ord]; omega)]
          have hrec := ih y (m + 1) hy (by omega) (by omega)
            (by unfold mIdx; omega) (by unfold mIdx; omega) (by unfold mIdx; omega)
          rw [hdm] at hrec
          exact hrec
        · have hmeq : m = 12 := by omega
          subst hmeq
          have hfm : fonm y 12 = ⟨y + 1, 1, 1⟩ := by unfold fonm; rw [if_neg hm12]
          rw [hfm]
          have hdm : dmax (⟨y + 1, 1, 1⟩ : Date) s = ⟨y + 1, 1, 1⟩ := by
            unfold dmax
            rw [if_pos (by rw [← hfm, hfonm_ord]; omega)]
          have hrec := ih (y + 1) 1 (by omega) (le_refl _) (by omega)
            (by unfold mIdx; omega) (by unfold mIdx; omega) (by unfold mIdx; omega)
          rw [hdm] at hrec
          exact hrec

theorem month_windows_spanFrom {s e : Date} (hs : s.Valid) (he : e.Valid)
    (hle : toOrd s ≤ toOrd e) : SpanFrom e s (month_windows s e) := by
  have hE1 := toOrd_vs_first he
  have hS1 := toOrd_vs_first hs
  have hgE := monthLen_ge e.y e.m
  have hlES := monthLen_le s.y s.m
  have hed2 : e.d ≤ monthLen e.y e.m := he.2.2.2.2
  have hsd1 : 1 ≤ s.d := hs.2.2.2.1
  have hsd2 : s.d ≤ monthLen s.y s.m := hs.2.2.2.2
  have hed1 : 1 ≤ e.d := he.2.2.2.1
  have hmidx : 12 * s.y + s.m ≤ 12 * e.y + e.m := by
    by_contra hc
    push_neg at hc
    have hstrict := toOrd_month_mono_strict (12 * s.y + s.m - (12 * e.y + e.m) - 1)
      e.y e.m s.y s.m he.1 he.2.1 he.2.2.1 hs.1 hs.2.1 hs.2.2.1 (by unfold mIdx; omega)
    have := monthLen_ge e.y e.m
    omega
  have hmono := toOrd_month_mono (12 * e.y + e.m - (12 * s.y + s.m)) s.y s.m e.y e.m
    hs.1 hs.2.1 hs.2.2.1 he.1 he.2.1 he.2.2.1 (by unfold mIdx; omega)
  have hlastE : toOrd (⟨e.y, e.m, monthLen e.y e.m⟩ : Date) =
      toOrd ⟨e.y, e.m, 1⟩ + monthLen e.y e.m - 1 := by
    simp only [toOrd]; omega
  simp only [month_windows]
  rw [fonm_eq e.y e.m he.2.1 he.2.2.1, prevDay_fonm e.y e.m he.1 he.2.1 he.2.2.1]
  have hmain := monthLoop_spanFrom s e hs he hle
    (toOrd ⟨e.y, e.m, monthLen e.y e.m⟩ + 1 - toOrd ⟨s.y, s.m, 1⟩)
    s.y s.m hs.1 hs.2.1 hs.2.2.1 (le_refl _) (show mIdx s.y s.m ≤ mIdx e.y e.m from hmidx)
    (show mIdx e.y e.m + 1 - mIdx s.y s.m ≤ _ from by
      show 12 * e.y + e.m + 1 - (12 * s.y + s.m) ≤ _
      omega)
  have hdm : dmax (⟨s.y, s.m, 1⟩ : Date) s = s := by
    unfold dmax
    by_cases hc : toOrd s ≤ toOrd ⟨s.y, s.m, 1⟩
    · rw [if_pos hc]
      have hd1 : s.d = 1 := by omega
      cases s with
      | mk ys ms ds =>
        dsimp only at hd1 ⊢
        rw [hd1]
    · rw [if_neg hc]
  rw [hdm] at hmain
  exact hmain

/-! ### Query builders (src/chicago_crime_downloader/soql.py)

Python dicts preserve insertion order; parameter dicts are embedded as
association lists in insertion order. -/

/-- soql._soql_day_bounds: ISO8601 strings WITHOUT timezone for a half-open
day window. -/
def soql_day_bounds (d : Date) : String × String :=
  (fmtYMD d ++ "T00:00:00.000", fmtYMD (addDays d 1) ++ "T00:00:00.000")

/-- soql.soql_params_window: parameters for windowed queries. -/
def soql_params_window (offset limit : Nat) (start_d end_d : Date)
    (select : Option String) : List (String × String) :=
  let s_iso := (soql_day_bounds start_d).1
  let e_next_iso := fmtYMD (addDays end_d 1) ++ "T00:00:00.000"
  let params := [("$limit", toString limit), ("$offset", toString offset),
    ("$order", "date desc"),
    ("$where", "date >= '" ++ s_iso ++ "' AND date < '" ++ e_next_iso ++ "'")]
  match select with
  | some sel => params ++ [("$select", sel)]
  | none => params

/-- soql.soql_params: parameters for offset-based pagination over an
optional global date range. -/
def soql_params (offset limit : Nat) (start_date end_date : Option Date)
    (select : Option String) : List (String × String) :=
  let base := [("$limit", toString limit), ("$offset", toString offset),
    ("$order", "date desc")]
  let withSel := match select with
    | some sel => base ++ [("$select", sel)]
    | none => base
  match start_date, end_date with
  | some sd, some ed =>
      withSel ++ [("$where", "date >= '" ++ (soql_day_bounds sd).1 ++ "' AND date < '" ++
        (fmtYMD (addDays ed 1) ++ "T00:00:00.000") ++ "'")]
  | some sd, none =>
      withSel ++ [("$where", "date >= '" ++ (soql_day_bounds sd).1 ++ "'")]
  | none, some ed =>
      withSel ++ [("$where", "date < '" ++ (fmtYMD (addDays ed 1) ++ "T00:00:00.000") ++ "'")]
  | none, none => withSel

/-! ### Resilient fetcher (src/chicago_crime_downloader/http_client.py)

safe_request is embedded over a script: the list of upstream responses, one
consumed per attempt; a missing response is a network failure.  Each row
list is opaque (row contents never matter).  The sleeps between attempts do
not influence control flow and are not modelled; the backoff counter is
kept because the source threads it through the loop. -/

/-- One upstream response: a 2xx JSON page, an HTTP 429 with optional
Retry-After, or a failure (network error or non-2xx non-429 status). -/
inductive FetchResp where
  | ok (rows : List Nat)
  | rate429 (retryAfter : Option Nat)
  | exc
deriving DecidableEq, Repr

/-- The outcome of safe_request: a returned row list or a raised exception. -/
inductive SRRes where
  | rows (rs : List Nat)
  | raised
deriving DecidableEq, Repr

/-- The response consumed by attempt i (0-based). -/
def respAt (script : List FetchResp) (i : Nat) : FetchResp := script.getD i .exc

/-- The for-loop of safe_request: remaining counts the attempts still
allowed (remaining = retries - attempt + 1); the final attempt has
remaining = 1.  On 429: sleep and continue.  On success: return the page.
On failure: re-raise if this was the final attempt, else sleep and retry.
Falling out of the loop returns the empty list. -/
def safe_request_loop : Nat → Nat → List FetchResp → SRRes
  | 0, _, _ => .rows []
  | remaining + 1, backoff, script =>
      match script.headD .exc with
      | .ok rows => .rows rows
      | .rate429 _ => safe_request_loop remaining (min (backoff * 2) 60) script.tail
      | .exc =>
          if remaining = 0 then .raised
          else safe_request_loop remaining (min (backoff * 2) 60) script.tail

/-- http_client.safe_request with http.retries = retries. -/
def safe_request (script : List FetchResp) (retries : Nat) : SRRes :=
  safe_request_loop retries 2 script

theorem respAt_tail (script : List FetchResp) (i : Nat) :
    respAt script.tail i = respAt script (i + 1) := by
  cases script <;> rfl

theorem respAt_zero (script : List FetchResp) : script.headD .exc = respAt script 0 := by
  cases script <;> rfl

/-- Exhausting the budget on nothing but 429 responses falls out of the
loop and returns the empty list. -/
theorem srLoop_all429 :
    ∀ (r b : Nat) (script : List FetchResp),
      (∀ i < r, ∃ ra, respAt script i = .rate429 ra) →
      safe_request_loop r b script = .rows [] := by
  intro r
  induction r with
  | zero => intro b script _; rfl
  | succ n ih =>
    intro b script hall
    obtain ⟨ra, hra⟩ := hall 0 (by omega)
    rw [safe_request_loop, respAt_zero, hra]
    exact ih _ script.tail fun i hi => by
      rw [respAt_tail]
      exact hall (i + 1) (by omega)

/-- If no attempt succeeds and the final attempt fails with a non-429
failure, the exception propagates. -/
theorem srLoop_exhaust_exc :
    ∀ (r b : Nat) (script : List FetchResp), 1 ≤ r →
      (∀ i < r, ∀ rows, respAt script i ≠ .ok rows) →
      respAt script (r - 1) = .exc →
      safe_request_loop r b script = .raised := by
  intro r
  induction r with
  | zero => intro b script h; omega
  | succ n ih =>
    intro b script _ hfail hlast
    rw [safe_request_loop, respAt_zero]
    cases n with
    | zero =>
      simp only [Nat.add_sub_cancel] at hlast
      rw [hlast]
      rfl
    | succ n2 =>
      have hlastN : respAt script (n2 + 1) = .exc := by
        simpa using hlast
      have hrec : ∀ b2, safe_request_loop (n2 + 1) b2 script.tail = .raised := fun b2 =>
        ih b2 script.tail (by omega)
          (fun i hi rows => by rw [respAt_tail]; exact hfail (i + 1) (by omega) rows)
          (by simp only [Nat.add_sub_cancel]; rw [respAt_tail]; exact hlastN)
      cases hresp : respAt script 0 with
      | ok rows => exact absurd hresp (hfail 0 (by omega) rows)
      | rate429 ra => exact hrec _
      | exc =>
        simp only [if_neg (Nat.succ_ne_zero n2)]
        exact hrec _

/-- Whenever safe_request returns a row list, either some attempt got that
page from the upstream, or the list is empty and the final attempt of the
exhausted budget was a 429. -/
theorem srLoop_rows :
    ∀ (r b : Nat) (script : List FetchResp) (rs : List Nat),
      safe_request_loop r b script = .rows rs →
      (∃ i < r, respAt script i = .ok rs) ∨
        (rs = [] ∧ (r = 0 ∨ ∃ ra, respAt script (r - 1) = .rate429 ra)) := by
  intro r
  induction r with
  | zero =>
    intro b script rs h
    rw [safe_request_loop] at h
    cases h
    exact Or.inr ⟨rfl, Or.inl rfl⟩
  | succ n ih =>
    intro b script rs h
    rw [safe_request_loop, respAt_zero] at h
    cases hresp : respAt script 0 with
    | ok rows =>
      rw [hresp] at h
      cases h
      exact Or.inl ⟨0, by omega, hresp⟩
    | rate429 ra =>
      rw [hresp] at h
      rcases ih _ script.tail rs h with ⟨i, hi, hok⟩ | ⟨hrs, hr⟩
      · rw [respAt_tail] at hok
        exact Or.inl ⟨i + 1, by omega, hok⟩
      · refine Or.inr ⟨hrs, Or.inr ?_⟩
        rcases hr with hr0 | ⟨ra2, hra2⟩
        · subst hr0
          simpa using ⟨ra, hresp⟩
        · rw [respAt_tail] at hra2
          rcases Nat.eq_zero_or_pos n with h0 | hpos
          · subst h0
            simpa using ⟨ra, hresp⟩
          · refine ⟨ra2, ?_⟩
            have : n - 1 + 1 = n + 1 - 1 := by omega
            rw [this] at hra2
            exact hra2
    | exc =>
      rw [hresp] at h
      cases n with
      | zero => simp at h
      | succ n2 =>
        simp only [if_neg (Nat.succ_ne_zero n2)] at h
        rcases ih _ script.tail rs h with ⟨i, hi, hok⟩ | ⟨hrs, hr⟩
        · rw [respAt_tail] at hok
          exact Or.inl ⟨i + 1, by omega, hok⟩
        · refine Or.inr ⟨hrs, Or.inr ?_⟩
          rcases hr with hr0 | ⟨ra2, hra2⟩
          · exact absurd hr0 (Nat.succ_ne_zero n2)
          · rw [respAt_tail] at hra2
            refine ⟨ra2, ?_⟩
            have : n2 + 1 - 1 + 1 = n2 + 1 + 1 - 1 := by omega
            rw [this] at hra2
            exact hra2

/-! ### Filesystem model and io helpers (src/chicago_crime_downloader/io_utils.py)

A run works inside one base directory; the filesystem is its existence flag,
the list of file names it holds, and the decoded payload of each manifest
file written (the payload lives in the file; it is carried separately so
theorems can read it back).  File contents are opaque; the SHA-256 of a file
is an uninterpreted function of its name passed in as shaOf. -/

/-- io_utils._data_suffix. -/
def data_suffix (out_format : String) (compression : Option String) : String :=
  if out_format = "csv" then (if compression = some "gzip" then ".csv.gz" else ".csv")
  else ".parquet"

/-- io_utils._suffix_candidates.  Python iterates sorted(extras);
sorted({".csv", ".csv.gz"}) is [".csv", ".csv.gz"] and sorted({".parquet"})
is [".parquet"], written out literally here. -/
def suffix_candidates (out_format : String) (compression : Option String) : List String :=
  let primary := data_suffix out_format compression
  let extras := if out_format = "csv" then [".csv", ".csv.gz"] else [".parquet"]
  primary :: extras.filter (fun e => e ≠ primary)

/-- fnmatch-style matching for the patterns io_utils passes to Path.glob:
a star matches any (possibly empty) run of characters, everything else is
literal.  The names matched here contain no path separator and no leading
dot, so Path.glob agrees with fnmatch on them.  Every step shrinks
pattern-length plus string-length, so the fuel of globMatch never runs
out. -/
def globMatchF : Nat → List Char → List Char → Bool
  | 0, _, _ => false
  | _ + 1, [], s => s.isEmpty
  | fuel + 1, p :: ps, [] => if p = '*' then globMatchF fuel ps [] else false
  | fuel + 1, p :: ps, c :: s2 =>
    if p = '*' then globMatchF fuel ps (c :: s2) || globMatchF fuel (p :: ps) s2
    else p == c && globMatchF fuel ps s2

def globMatch (p s : List Char) : Bool := globMatchF (p.length + s.length + 1) p s

/-- String-level pattern match. -/
def matchPat (patt name : String) : Bool := globMatch patt.data name.data

/-- The JSON payload io_utils.write_manifest serialises.  The two wall-clock
instants are opaque tokens recorded as given (their isoformat rendering and
the rounded float difference are presentation of these opaque instants). -/
structure ManifestJson where
  data_file : String
  rows : Nat
  sha256 : Option String
  params : List (String × String)
  started_at : Nat
  finished_at : Nat
  duration_seconds : Nat
  endpoint : String
  version : Nat
  compression : String
deriving DecidableEq, Repr

/-- The base directory state. -/
structure FS where
  dirExists : Bool
  files : List String
  manifests : List (String × ManifestJson) := []
deriving DecidableEq, Repr

/-- io_utils.resume_index_for_layout over the modelled directory. -/
def resume_index_for_layout (fs : FS) (wid mode_label out_format layout : String)
    (compression : Option String) : Nat :=
  let suffixes := suffix_candidates out_format compression
  let patterns := suffixes.map (fun suffix =>
    if layout = "nested" ∨ layout = "ymd" then "*chunk_*" ++ suffix
    else if layout = "mode-flat" then wid ++ "_chunk_*" ++ suffix
    else if layout = "flat" then mode_label ++ "_" ++ wid ++ "_chunk_*" ++ suffix
    else "*chunk_*" ++ suffix)
  if fs.dirExists then
    ((patterns.map fun patt => fs.files.filter (fun f => matchPat patt f)).flatten).length
  else 0

/-- io_utils.resume_index (full mode): out_format None scans all three
suffixes. -/
def resume_index (fs : FS) (pfx : Option String) (out_format : Option String)
    (compression : Option String) : Nat :=
  let suffixes := match out_format with
    | none => [".parquet", ".csv", ".csv.gz"]
    | some fmt => suffix_candidates fmt compression
  let patterns := match pfx with
    | some p => suffixes.map (fun suffix => p ++ "_chunk_*" ++ suffix)
    | none => suffixes.map (fun suffix => "chunk_*" ++ suffix)
  ((patterns.map fun patt => fs.files.filter (fun f => matchPat patt f)).flatten).length

/-- Python pathlib with_suffix: replace the last dot-suffix of the name (a
dot that is neither the first nor the last character), else append. -/
def withSuffix (s suffix : String) : String :=
  let cs := s.data
  match cs.reverse.findIdx? (fun c => c == '.') with
  | none => s ++ suffix
  | some k =>
      let i := cs.length - 1 - k
      if 0 < i ∧ i < cs.length - 1 then String.mk (cs.take i) ++ suffix
      else s ++ suffix

/-- Writing a file: names are unique within the directory, overwriting keeps
one entry. -/
def addFile (files : List String) (f : String) : List String :=
  if f ∈ files then files else f :: files

/-- io_utils.write_frame: honour the parquet fallback and return the path
actually written.  engineAvailable models _parquet_engine() finding pyarrow
or fastparquet. -/
def write_frame (fs : FS) (engineAvailable : Bool) (path : String) (out_format : String)
    (compression : Option String) : FS × String :=
  if out_format = "parquet" then
    if engineAvailable then
      ({ fs with files := addFile fs.files path }, path)
    else
      let csv_path := withSuffix path ".csv"
      if compression = some "gzip" then
        let gz_path := withSuffix csv_path ".csv.gz"
        ({ fs with files := addFile fs.files gz_path }, gz_path)
      else
        ({ fs with files := addFile fs.files csv_path }, csv_path)
  else
    ({ fs with files := addFile fs.files path }, path)

/-- io_utils.sha256_of_file opens the file: on a missing path it raises. -/
def sha256_of_file (fs : FS) (shaOf : String → String) (path : String) :
    Except Unit String :=
  if path ∈ fs.files then .ok (shaOf path) else .error ()

/-- config.BASE_URL. -/
def BASE_URL : String :=
  "https://data.cityofchicago.org/resource/ijzp-q8t2.json"

/-- io_utils.write_manifest: the sha256 field calls sha256_of_file only
behind the data_path.exists() guard, else records null; every other field
is recorded from the arguments.  An uncaught exception would surface as
Except.error. -/
def write_manifest (fs : FS) (shaOf : String → String)
    (manifest_path data_path : String) (params : List (String × String))
    (rows : Nat) (started finished : Nat) (compression : Option String) :
    Except Unit (FS × ManifestJson) := do
  let sha ← if data_path ∈ fs.files then
      Except.map (fun h => some h) (sha256_of_file fs shaOf data_path)
    else pure none
  let mj : ManifestJson := {
    data_file := data_path
    rows := rows
    sha256 := sha
    params := params
    started_at := started
    finished_at := finished
    duration_seconds := finished - started
    endpoint := BASE_URL
    version := 5
    compression := compression.getD "none" }
  let fs2 : FS := { fs with
    files := addFile fs.files manifest_path
    manifests := (manifest_path, mj) :: fs.manifests }
  pure (fs2, mj)

/-- io_utils.make_paths, reduced to the two file names inside the base
directory (the base directory itself is the FS).  Only the flat layout
prepends the mode label to the stem. -/
def make_paths_names (layout mode_label wid out_format : String)
    (compression : Option String) (chunk_no : Nat) : String × String :=
  let base_name :=
    if layout = "flat" then mode_label ++ "_" ++ wid ++ "_chunk_" ++ fmt04 chunk_no
    else wid ++ "_chunk_" ++ fmt04 chunk_no
  (base_name ++ data_suffix out_format compression, base_name ++ ".manifest.json")

/-! ### Run orchestrators (src/chicago_crime_downloader/runners.py)

The HTTP upstream is an oracle from the request offset to the outcome of
safe_request for that query: a decoded page of n rows (row contents are
opaque, only the count drives control flow) or a raised exception.  Each
while-loop carries explicit fuel; the loops also log the offsets at which
the oracle was consulted, so theorems can talk about which chunks were
(re)fetched.  The cooperative stop_requested flag is never set in this
model (no cancellation). -/

/-- What safe_request produced for one query. -/
inductive FetchOutcome where
  | page (n : Nat)
  | exc
deriving DecidableEq, Repr

/-- Exits of a window loop / full-mode loop. -/
inductive WinExit where
  | noData
  | lastPage
  | fetchErr
  | raised
  | maxChunks
  | fuelOut
deriving DecidableEq, Repr

/-- The per-window constants of run_windowed_mode.  compression reflects
getattr(cfg, "compression", None) as used by make_paths; the calls to
resume_index_for_layout and write_frame in runners.py pass no compression
at all. -/
structure WinParams where
  out_format : String
  layout : String
  mode_label : String
  wid : String
  compression : Option String
  chunk_size : Nat
  engineAvailable : Bool
  select : Option String

/-- Mutable state of one window iteration. -/
structure WinState where
  fs : FS
  wroteAny : Bool
  createdThisRun : Bool
  fetched : List Nat
deriving Repr

/-- runners.py lines 151-157 and 190-196: remove the base directory if this
run created it, never wrote into it, and it is empty. -/
def pruneIfEmpty (st : WinState) : WinState :=
  if st.createdThisRun = true ∧ st.wroteAny = false ∧ st.fs.dirExists = true ∧
      st.fs.files = [] then
    { st with fs := { st.fs with dirExists := false } }
  else st

/-- The chunk file names run_windowed_mode plans for chunk_no of this
window. -/
def win_names (P : WinParams) (chunk_no : Nat) : String × String :=
  make_paths_names P.layout P.mode_label P.wid P.out_format P.compression chunk_no

/-- The while-loop of run_windowed_mode for one window (s, e, wid). -/
def win_loop (P : WinParams) (s e : Date) (oracle : Nat → FetchOutcome)
    (shaOf : String → String) :
    Nat → Nat → Nat → WinState → WinState × WinExit
  | 0, _, _, st => (st, .fuelOut)
  | fuel + 1, offset, chunk_no, st =>
    let names := win_names P chunk_no
    if names.1 ∈ st.fs.files ∧ names.2 ∈ st.fs.files then
      win_loop P s e oracle shaOf fuel (offset + P.chunk_size) (chunk_no + 1) st
    else
      let params := soql_params_window offset P.chunk_size s e P.select
      let st1 := { st with fetched := st.fetched ++ [offset] }
      match oracle offset with
      | .exc => (pruneIfEmpty st1, .fetchErr)
      | .page n =>
        if n = 0 then (st1, .noData)
        else
          let st2 :=
            if st1.fs.dirExists = false then
              { st1 with fs := { st1.fs with dirExists := true }, createdThisRun := true }
            else st1
          let wf := write_frame st2.fs P.engineAvailable names.1 P.out_format none
          match write_manifest wf.1 shaOf names.2 wf.2 params n 0 0 none with
          | .error _ => ({ st2 with fs := wf.1 }, .raised)
          | .ok r =>
            let st3 := { st2 with fs := r.1, wroteAny := true }
            if n < P.chunk_size then (st3, .lastPage)
            else win_loop P s e oracle shaOf fuel (offset + P.chunk_size) (chunk_no + 1) st3

/-- One window of run_windowed_mode: resume from the existing directory,
loop, and prune an empty created directory on the way out (the source also
prunes inside the error handler; pruning twice is idempotent). -/
def process_window (P : WinParams) (s e : Date) (oracle : Nat → FetchOutcome)
    (shaOf : String → String) (fuel : Nat) (fs0 : FS) : WinState × WinExit :=
  let start_idx :=
    if fs0.dirExists then
      resume_index_for_layout fs0 P.wid P.mode_label P.out_format P.layout none
    else 0
  let st0 : WinState := { fs := fs0, wroteAny := false, createdThisRun := false, fetched := [] }
  let r := win_loop P s e oracle shaOf fuel (start_idx * P.chunk_size) (start_idx + 1) st0
  match r.2 with
  | .fuelOut => r
  | .raised => r
  | _ => (pruneIfEmpty r.1, r.2)

/-- The constants of run_offset_mode. -/
structure OffParams where
  out_format : String
  chunk_size : Nat
  max_chunks : Option Nat
  start_date : Option Date
  end_date : Option Date
  select : Option String
  engineAvailable : Bool

/-- Mutable state of the full-mode loop. -/
structure OffState where
  fs : FS
  fetched : List Nat
deriving Repr

/-- The while-loop of run_offset_mode.  Note three faithful details: the
data file name suffix is the raw format string; write_frame is called with
its returned actual path discarded; the manifest records the planned
data_path. -/
def off_loop (P : OffParams) (oracle : Nat → FetchOutcome) (shaOf : String → String) :
    Nat → Nat → Nat → OffState → OffState × WinExit
  | 0, _, _, st => (st, .fuelOut)
  | fuel + 1, offset, chunk_no, st =>
    let stopMax : Bool := match P.max_chunks with
      | some mc => decide (mc ≠ 0) && decide (mc < chunk_no)
      | none => false
    if stopMax then (st, .maxChunks)
    else
      let dataName := "chunk_" ++ fmt04 chunk_no ++ "." ++ P.out_format
      let manifestName := "chunk_" ++ fmt04 chunk_no ++ ".manifest.json"
      if dataName ∈ st.fs.files ∧ manifestName ∈ st.fs.files then
        off_loop P oracle shaOf fuel (offset + P.chunk_size) (chunk_no + 1) st
      else
        let params := soql_params offset P.chunk_size P.start_date P.end_date P.select
        let st1 := { st with fetched := st.fetched ++ [offset] }
        match oracle offset with
        | .exc => (st1, .fetchErr)
        | .page n =>
          if n = 0 then (st1, .noData)
          else
            let wf := write_frame st1.fs P.engineAvailable dataName P.out_format none
            match write_manifest wf.1 shaOf manifestName dataName params n 0 0 none with
            | .error _ => ({ st1 with fs := wf.1 }, .raised)
            | .ok r =>
              let st2 := { st1 with fs := r.1 }
              if n < P.chunk_size then (st2, .lastPage)
              else off_loop P oracle shaOf fuel (offset + P.chunk_size) (chunk_no + 1) st2

/-- runners.run_offset_mode: the base directory is created eagerly by
ensure_dir before the resume scan and before any fetch, and is never
removed. -/
def run_offset_mode (P : OffParams) (oracle : Nat → FetchOutcome)
    (shaOf : String → String) (fuel : Nat) (fs0 : FS) : OffState × WinExit :=
  let fs1 := { fs0 with dirExists := true }
  let start_idx := resume_index fs1 none none none
  off_loop P oracle shaOf fuel (start_idx * P.chunk_size) (start_idx + 1)
    { fs := fs1, fetched := [] }

/-! ### Support lemmas about the io helpers -/

theorem mem_addFile {files : List String} {f : String} (g : String) (h : f ∈ files) :
    f ∈ addFile files g := by
  unfold addFile
  split
  · exact h
  · exact List.mem_cons_of_mem g h

theorem addFile_self (files : List String) (g : String) : g ∈ addFile files g := by
  unfold addFile
  split
  · assumption
  · exact List.mem_cons_self g files

/-- The manifest payload write_manifest produces from its arguments. -/
def manifestSpec (fs : FS) (shaOf : String → String) (dp : String)
    (params : List (String × String)) (rows started finished : Nat)
    (comp : Option String) : ManifestJson :=
  { data_file := dp
    rows := rows
    sha256 := if dp ∈ fs.files then some (shaOf dp) else none
    params := params
    started_at := started
    finished_at := finished
    duration_seconds := finished - started
    endpoint := BASE_URL
    version := 5
    compression := comp.getD "none" }

/-- write_manifest never raises: the sha256_of_file call sits behind the
existence guard, so the result is always ok, with the null sha exactly when
the data file is absent. -/
theorem write_manifest_ok (fs : FS) (shaOf : String → String)
    (mp dp : String) (params : List (String × String)) (rows started finished : Nat)
    (comp : Option String) :
    write_manifest fs shaOf mp dp params rows started finished comp =
      .ok ({ fs with
              files := addFile fs.files mp
              manifests := (mp, manifestSpec fs shaOf dp params rows started finished comp)
                :: fs.manifests },
           manifestSpec fs shaOf dp params rows started finished comp) := by
  unfold write_manifest sha256_of_file manifestSpec
  by_cases h : dp ∈ fs.files
  · simp [h, Except.map]
  · simp [h]
    rfl

theorem write_frame_dirExists (fs : FS) (eng : Bool) (p fmt : String)
    (comp : Option String) :
    ((write_frame fs eng p fmt comp).1).dirExists = fs.dirExists := by
  unfold write_frame
  split_ifs <;> rfl

theorem write_frame_manifests (fs : FS) (eng : Bool) (p fmt : String)
    (comp : Option String) :
    ((write_frame fs eng p fmt comp).1).manifests = fs.manifests := by
  unfold write_frame
  split_ifs <;> rfl

theorem write_frame_files_mono {fs : FS} {f : String} (eng : Bool) (p fmt : String)
    (comp : Option String) (h : f ∈ fs.files) :
    f ∈ ((write_frame fs eng p fmt comp).1).files := by
  unfold write_frame
  split_ifs <;> exact mem_addFile _ h

theorem write_frame_ret_mem (fs : FS) (eng : Bool) (p fmt : String)
    (comp : Option String) :
    (write_frame fs eng p fmt comp).2 ∈ ((write_frame fs eng p fmt comp).1).files := by
  unfold write_frame
  split_ifs <;> exact addFile_self _ _

/-- The parquet fallback writes and returns the same base name with the
suffix replaced by .csv. -/
theorem write_frame_fallback_path (fs : FS) (p : String) :
    (write_frame fs false p "parquet" none).2 = withSuffix p ".csv" := by
  simp [write_frame]

theorem pruneIfEmpty_id (st : WinState) (h : st.createdThisRun = true → st.wroteAny = true) :
    pruneIfEmpty st = st := by
  unfold pruneIfEmpty
  split
  · rename_i hc
    obtain ⟨h1, h2, _, _⟩ := hc
    rw [h h1] at h2
    cases h2
  · rfl

/-! ### Step equations and invariants of the windowed loop -/

/-- The state after fetching a non-empty page of n rows for chunk_no at
offset and writing the chunk file and its manifest. -/
def win_after_write (P : WinParams) (s e : Date) (shaOf : String → String)
    (offset chunk_no n : Nat) (st : WinState) : WinState :=
  let names := win_names P chunk_no
  let params := soql_params_window offset P.chunk_size s e P.select
  let st1 : WinState := { st with fetched := st.fetched ++ [offset] }
  let st2 : WinState :=
    if st1.fs.dirExists = false then
      { st1 with fs := { st1.fs with dirExists := true }, createdThisRun := true }
    else st1
  let wf := write_frame st2.fs P.engineAvailable names.1 P.out_format none
  let fs3 : FS := { wf.1 with
    files := addFile wf.1.files names.2
    manifests := (names.2, manifestSpec wf.1 shaOf wf.2 params n 0 0 none) :: wf.1.manifests }
  { st2 with fs := fs3, wroteAny := true }

theorem win_loop_skip {P : WinParams} {s e : Date} {oracle : Nat → FetchOutcome}
    {shaOf : String → String} {fuel offset chunk_no : Nat} {st : WinState}
    (hc : (win_names P chunk_no).1 ∈ st.fs.files ∧ (win_names P chunk_no).2 ∈ st.fs.files) :
    win_loop P s e oracle shaOf (fuel + 1) offset chunk_no st =
      win_loop P s e oracle shaOf fuel (offset + P.chunk_size) (chunk_no + 1) st := by
  rw [win_loop]
  simp only [if_pos hc]

theorem win_loop_err {P : WinParams} {s e : Date} {oracle : Nat → FetchOutcome}
    {shaOf : String → String} {fuel offset chunk_no : Nat} {st : WinState}
    (hc : ¬((win_names P chunk_no).1 ∈ st.fs.files ∧ (win_names P chunk_no).2 ∈ st.fs.files))
    (ho : oracle offset = .exc) :
    win_loop P s e oracle shaOf (fuel + 1) offset chunk_no st =
      (pruneIfEmpty { st with fetched := st.fetched ++ [offset] }, .fetchErr) := by
  rw [win_loop]
  simp only [if_neg hc, ho]

theorem win_loop_empty {P : WinParams} {s e : Date} {oracle : Nat → FetchOutcome}
    {shaOf : String → String} {fuel offset chunk_no : Nat} {st : WinState}
    (hc : ¬((win_names P chunk_no).1 ∈ st.fs.files ∧ (win_names P chunk_no).2 ∈ st.fs.files))
    (ho : oracle offset = .page 0) :
    win_loop P s e oracle shaOf (fuel + 1) offset chunk_no st =
      ({ st with fetched := st.fetched ++ [offset] }, .noData) := by
  rw [win_loop]
  simp only [if_neg hc, ho, ite_true]

theorem win_loop_write {P : WinParams} {s e : Date} {oracle : Nat → FetchOutcome}
    {shaOf : String → String} {fuel offset chunk_no n : Nat} {st : WinState}
    (hc : ¬((win_names P chunk_no).1 ∈ st.fs.files ∧ (win_names P chunk_no).2 ∈ st.fs.files))
    (ho : oracle offset = .page n) (hn : ¬n = 0) :
    win_loop P s e oracle shaOf (fuel + 1) offset chunk_no st =
      (if n < P.chunk_size then (win_after_write P s e shaOf offset chunk_no n st, .lastPage)
       else win_loop P s e oracle shaOf fuel (offset + P.chunk_size) (chunk_no + 1)
         (win_after_write P s e shaOf offset chunk_no n st)) := by
  rw [win_loop]
  simp only [if_neg hc, ho, if_neg hn, write_manifest_ok, win_after_write]

/-- The facts a windowed-loop run preserves from state st (before) to the
result state: directory creation only happens together with a first write,
wroteAny is monotone, every recorded manifest points at an existing file,
files already present stay, and the log of fetched offsets only grows, by
offsets at or beyond the current one. -/
def WinInv (offset : Nat) (st r : WinState) : Prop :=
  (r.createdThisRun = true → r.wroteAny = true) ∧
  (st.wroteAny = true → r.wroteAny = true) ∧
  (r.wroteAny = false → r.fs.dirExists = st.fs.dirExists) ∧
  ((∀ pr ∈ st.fs.manifests, pr.2.data_file ∈ st.fs.files) →
    ∀ pr ∈ r.fs.manifests, pr.2.data_file ∈ r.fs.files) ∧
  (∀ f ∈ st.fs.files, f ∈ r.fs.files) ∧
  (∀ x ∈ r.fetched, x ∈ st.fetched ∨ offset ≤ x) ∧
  (∀ x ∈ st.fetched, x ∈ r.fetched)

theorem win_after_write_props (P : WinParams) (s e : Date) (shaOf : String → String)
    (offset chunk_no n : Nat) (st : WinState) :
    (win_after_write P s e shaOf offset chunk_no n st).wroteAny = true ∧
    (win_after_write P s e shaOf offset chunk_no n st).fetched = st.fetched ++ [offset] ∧
    (∀ f ∈ st.fs.files, f ∈ (win_after_write P s e shaOf offset chunk_no n st).fs.files) ∧
    ((∀ pr ∈ st.fs.manifests, pr.2.data_file ∈ st.fs.files) →
      ∀ pr ∈ (win_after_write P s e shaOf offset chunk_no n st).fs.manifests,
        pr.2.data_file ∈ (win_after_write P s e shaOf offset chunk_no n st).fs.files) := by
  simp only [win_after_write]
  refine ⟨trivial, ?_, ?_, ?_⟩
  · split <;> rfl
  · intro f hf
    split <;> exact mem_addFile _ (write_frame_files_mono _ _ _ _ hf)
  · intro hman pr hpr
    rcases List.mem_cons.mp hpr with heq | htail
    · subst heq
      split
      all_goals {
        apply mem_addFile
        rw [manifestSpec]
        exact write_frame_ret_mem _ _ _ _ _
      }
    · -- an older manifest: its recorded file was already present
      revert htail
      split <;> intro htail <;>
        rw [write_frame_manifests] at htail <;>
        exact mem_addFile _ (write_frame_files_mono _ _ _ _ (hman _ htail))

theorem winInv_refl {k : Nat} {st : WinState}
    (h : st.createdThisRun = true → st.wroteAny = true) : WinInv k st st :=
  ⟨h, fun hw => hw, fun _ => rfl, fun hg => hg, fun _ hf => hf,
    fun _ hx => Or.inl hx, fun _ hx => hx⟩

theorem winInv_mono {k k2 : Nat} {st r : WinState} (hk : k ≤ k2)
    (h : WinInv k2 st r) : WinInv k st r := by
  obtain ⟨h1, h2, h3, h4, h5, h6, h7⟩ := h
  exact ⟨h1, h2, h3, h4, h5, fun x hx => (h6 x hx).imp_right (le_trans hk), h7⟩

/-- Composing one write step with an invariant for the rest of the loop. -/
theorem winInv_step {k k2 : Nat} {st st2 r : WinState}
    (hw : st2.wroteAny = true)
    (hf : st2.fetched = st.fetched ++ [k])
    (hfiles : ∀ f ∈ st.fs.files, f ∈ st2.fs.files)
    (hman : (∀ pr ∈ st.fs.manifests, pr.2.data_file ∈ st.fs.files) →
      ∀ pr ∈ st2.fs.manifests, pr.2.data_file ∈ st2.fs.files)
    (h : WinInv k2 st2 r) (hk : k ≤ k2) : WinInv k st r := by
  obtain ⟨h1, h2, h3, h4, h5, h6, h7⟩ := h
  have hwr : r.wroteAny = true := h2 hw
  refine ⟨h1, fun _ => hwr, ?_, ?_, ?_, ?_, ?_⟩
  · intro hcontra
    rw [hcontra] at hwr
    cases hwr
  · exact fun hg => h4 (hman hg)
  · exact fun f hfm => h5 f (hfiles f hfm)
  · intro x hx
    rcases h6 x hx with hin2 | hge
    · rw [hf] at hin2
      rcases List.mem_append.mp hin2 with hA | hB
      · exact Or.inl hA
      · exact Or.inr (le_of_eq (List.mem_singleton.mp hB).symm)
    · exact Or.inr (le_trans hk hge)
  · intro x hx
    exact h7 x (by rw [hf]; exact List.mem_append_left _ hx)

/-- The fetched-and-stopped step: only the offset log changed. -/
theorem winInv_append {k : Nat} {st : WinState}
    (h : st.createdThisRun = true → st.wroteAny = true) :
    WinInv k st { st with fetched := st.fetched ++ [k] } := by
  refine ⟨h, fun hw => hw, fun _ => rfl, fun hg => hg, fun _ hf => hf, ?_, ?_⟩
  · intro x hx
    rcases List.mem_append.mp hx with hA | hB
    · exact Or.inl hA
    · exact Or.inr (le_of_eq (List.mem_singleton.mp hB).symm)
  · intro x hx
    exact List.mem_append_left _ hx

theorem pruneIfEmpty_fetched (st : WinState) : (pruneIfEmpty st).fetched = st.fetched := by
  unfold pruneIfEmpty
  split <;> rfl

/-- The windowed loop maintains WinInv from any state in which directory
creation implies a write already happened. -/
theorem win_loop_inv (P : WinParams) (s e : Date) (oracle : Nat → FetchOutcome)
    (shaOf : String → String) :
    ∀ fuel offset chunk_no st, (st.createdThisRun = true → st.wroteAny = true) →
      WinInv offset st (win_loop P s e oracle shaOf fuel offset chunk_no st).1 := by
  intro fuel
  induction fuel with
  | zero =>
    intro offset chunk_no st h
    exact winInv_refl h
  | succ fuel ih =>
    intro offset chunk_no st h
    by_cases hc : (win_names P chunk_no).1 ∈ st.fs.files ∧ (win_names P chunk_no).2 ∈ st.fs.files
    · rw [win_loop_skip hc]
      exact winInv_mono (Nat.le_add_right _ _) (ih (offset + P.chunk_size) (chunk_no + 1) st h)
    · cases ho : oracle offset with
      | exc =>
        rw [win_loop_err hc ho]
        show WinInv offset st (pruneIfEmpty { st with fetched := st.fetched ++ [offset] })
        rw [pruneIfEmpty_id { st with fetched := st.fetched ++ [offset] } (fun hcr => h hcr)]
        exact winInv_append h
      | page n =>
        by_cases hn : n = 0
        · subst hn
          rw [win_loop_empty hc ho]
          exact winInv_append h
        · rw [win_loop_write hc ho hn]
          obtain ⟨hw1, hw2, hw3, hw4⟩ := win_after_write_props P s e shaOf offset chunk_no n st
          split
          · exact winInv_step hw1 hw2 hw3 hw4 (winInv_refl (fun _ => hw1)) (le_refl offset)
          · exact winInv_step hw1 hw2 hw3 hw4
              (ih (offset + P.chunk_size) (chunk_no + 1) _ (fun _ => hw1))
              (Nat.le_add_right _ _)

/-- A chunk whose two files are not both present gets its offset queried. -/
theorem win_loop_fetches (P : WinParams) (s e : Date) (oracle : Nat → FetchOutcome)
    (shaOf : String → String) (fuel offset chunk_no : Nat) (st : WinState)
    (hc : ¬((win_names P chunk_no).1 ∈ st.fs.files ∧ (win_names P chunk_no).2 ∈ st.fs.files)) :
    offset ∈ (win_loop P s e oracle shaOf (fuel + 1) offset chunk_no st).1.fetched := by
  cases ho : oracle offset with
  | exc =>
    rw [win_loop_err hc ho]
    show offset ∈ (pruneIfEmpty { st with fetched := st.fetched ++ [offset] }).fetched
    rw [pruneIfEmpty_fetched]
    exact List.mem_append_right _ (List.mem_singleton.mpr rfl)
  | page n =>
    by_cases hn : n = 0
    · subst hn
      rw [win_loop_empty hc ho]
      exact List.mem_append_right _ (List.mem_singleton.mpr rfl)
    · rw [win_loop_write hc ho hn]
      obtain ⟨hw1, hw2, _, _⟩ := win_after_write_props P s e shaOf offset chunk_no n st
      have hmem : offset ∈ (win_after_write P s e shaOf offset chunk_no n st).fetched := by
        rw [hw2]
        exact List.mem_append_right _ (List.mem_singleton.mpr rfl)
      split
      · exact hmem
      · exact (win_loop_inv P s e oracle shaOf fuel (offset + P.chunk_size) (chunk_no + 1) _
          (fun _ => hw1)).2.2.2.2.2.2 offset hmem

/-- process_window establishes WinInv from the fresh per-window state. -/
theorem process_window_inv (P : WinParams) (s e : Date) (oracle : Nat → FetchOutcome)
    (shaOf : String → String) (fuel : Nat) (fs0 : FS) :
    WinInv ((if fs0.dirExists then
        resume_index_for_layout fs0 P.wid P.mode_label P.out_format P.layout none else 0)
        * P.chunk_size)
      { fs := fs0, wroteAny := false, createdThisRun := false, fetched := [] }
      (process_window P s e oracle shaOf fuel fs0).1 := by
  have hinv := win_loop_inv P s e oracle shaOf fuel
    ((if fs0.dirExists then
        resume_index_for_layout fs0 P.wid P.mode_label P.out_format P.layout none else 0)
      * P.chunk_size)
    ((if fs0.dirExists then
        resume_index_for_layout fs0 P.wid P.mode_label P.out_format P.layout none else 0) + 1)
    { fs := fs0, wroteAny := false, createdThisRun := false, fetched := [] }
    (fun hcr => Bool.noConfusion hcr)
  simp only [process_window]
  by_cases hd : fs0.dirExists = true
  · rw [if_pos hd] at hinv ⊢
    split
    · exact hinv
    · exact hinv
    · rw [pruneIfEmpty_id _ hinv.1]
      exact hinv
  · rw [if_neg hd] at hinv ⊢
    split
    · exact hinv
    · exact hinv
    · rw [pruneIfEmpty_id _ hinv.1]
      exact hinv

/-- The full-mode loop never touches the directory-existence flag. -/
theorem off_loop_dir (P : OffParams) (oracle : Nat → FetchOutcome) (shaOf : String → String) :
    ∀ fuel offset chunk_no st,
      ((off_loop P oracle shaOf fuel offset chunk_no st).1).fs.dirExists = st.fs.dirExists := by
  intro fuel
  induction fuel with
  | zero => intro offset chunk_no st; rfl
  | succ fuel ih =>
    intro offset chunk_no st
    simp only [off_loop]
    split
    · rfl
    · split
      · exact ih _ _ _
      · split
        · rfl
        · split
          · rfl
          · rw [write_manifest_ok]
            dsimp only
            split
            · dsimp only
              rw [write_frame_dirExists]
            · rw [ih]
              dsimp only
              rw [write_frame_dirExists]

/-- run_offset_mode flips dirExists on at initialisation, before any fetch,
and nothing turns it off. -/
theorem run_offset_mode_dir (P : OffParams) (oracle : Nat → FetchOutcome)
    (shaOf : String → String) (fuel : Nat) (fs0 : FS) :
    ((run_offset_mode P oracle shaOf fuel fs0).1).fs.dirExists = true := by
  simp only [run_offset_mode]
  rw [off_loop_dir]

/-- Every window the week loop emits starts on a Monday and takes its id
from the calendar year and the ISO week number of that Monday. -/
theorem weekLoop_mem_wid (e : Date) :
    ∀ fuel cur, cur.Valid → weekday cur = 0 →
      ∀ w ∈ weekLoop e fuel cur,
        weekday w.1 = 0 ∧ w.2.2 = fmt04 w.1.y ++ "-W" ++ fmt02 (isoWeek w.1) := by
  intro fuel
  induction fuel with
  | zero =>
    intro cur _ _ w hw
    simp only [weekLoop] at hw
    exact absurd hw (List.not_mem_nil w)
  | succ fuel ih =>
    intro cur hv hmon w hw
    rw [weekLoop] at hw
    by_cases hg : toOrd cur ≤ toOrd e
    · rw [if_pos hg] at hw
      rcases List.mem_cons.mp hw with heq | htail
      · subst heq
        exact ⟨hmon, rfl⟩
      · refine ih (addDays cur 7) (addDays_valid hv 7) ?_ w htail
        have h7 := toOrd_addDays hv 7
        unfold weekday at hmon ⊢
        omega
    · rw [if_neg hg] at hw
      exact absurd hw (List.not_mem_nil w)

/-- In the nested and ymd layouts the resume glob is *chunk_*<suffix>: the
window id and mode label never reach the pattern. -/
theorem resume_layout_indep (fs : FS) (w1 m1 w2 m2 fmt layout : String)
    (comp : Option String) (h : layout = "nested" ∨ layout = "ymd") :
    resume_index_for_layout fs w1 m1 fmt layout comp =
      resume_index_for_layout fs w2 m2 fmt layout comp := by
  simp only [resume_index_for_layout, if_pos h]

/-- The resume scan looks at file names only: the recorded manifest payloads
never influence the count. -/
theorem resume_manifests_indep (fs : FS) (w m fmt layout : String)
    (comp : Option String) (L : List (String × ManifestJson)) :
    resume_index_for_layout { fs with manifests := L } w m fmt layout comp =
      resume_index_for_layout fs w m fmt layout comp := rfl

/-! ### The claims -/

/-- Bool classifier: a response is a decoded 2xx page. -/
def isOkResp : FetchResp → Bool
  | .ok _ => true
  | _ => false

/-- Bool classifier: a response is an HTTP 429. -/
def is429Resp : FetchResp → Bool
  | .rate429 _ => true
  | _ => false

/-- C1: for start <= end the day and month windows are ordered,
non-overlapping and tile exactly [start, end]; the week windows tile exactly
[start - weekday(start), end]: the last window is clipped to end, but the
first weekly window starts at the Monday on or before start, NOT clipped to
start. -/
theorem C1_windows_tile (s e : Date) (hs : s.Valid) (he : e.Valid)
    (hle : toOrd s ≤ toOrd e) :
    SpanFrom e s (day_windows s e) ∧ SpanFrom e s (month_windows s e) ∧
    SpanFrom e (subDays s (weekday s)) (week_windows s e) ∧
    toOrd (subDays s (weekday s)) = toOrd s - weekday s ∧
    weekday (subDays s (weekday s)) = 0 :=
  ⟨day_windows_spanFrom hs hle, month_windows_spanFrom hs he hle,
   week_windows_spanFrom hs he hle, (week_alignment hs).1, (week_alignment hs).2⟩

/-- C1 witness: the tiling at the concrete span 2025-11-05 .. 2025-11-06. -/
theorem C1_windows_tile_w :
    SpanFrom ⟨2025, 11, 6⟩ ⟨2025, 11, 5⟩ (day_windows ⟨2025, 11, 5⟩ ⟨2025, 11, 6⟩) ∧
    SpanFrom ⟨2025, 11, 6⟩ ⟨2025, 11, 5⟩ (month_windows ⟨2025, 11, 5⟩ ⟨2025, 11, 6⟩) ∧
    SpanFrom ⟨2025, 11, 6⟩ (subDays ⟨2025, 11, 5⟩ (weekday ⟨2025, 11, 5⟩))
      (week_windows ⟨2025, 11, 5⟩ ⟨2025, 11, 6⟩) ∧
    toOrd (subDays ⟨2025, 11, 5⟩ (weekday ⟨2025, 11, 5⟩)) =
      toOrd ⟨2025, 11, 5⟩ - weekday ⟨2025, 11, 5⟩ ∧
    weekday (subDays ⟨2025, 11, 5⟩ (weekday ⟨2025, 11, 5⟩)) = 0 :=
  C1_windows_tile ⟨2025, 11, 5⟩ ⟨2025, 11, 6⟩ (by decide) (by decide) (by decide)

/-- C1 counterexample: for start = end = 2025-11-05, a Wednesday, the single
weekly window starts on 2025-11-03 — before the requested start, so the
first weekly window is not clipped to the span. -/
theorem C1_week_not_clipped :
    ∃ w ∈ week_windows ⟨2025, 11, 5⟩ ⟨2025, 11, 5⟩,
      toOrd w.1 < toOrd (⟨2025, 11, 5⟩ : Date) := by decide

/-- C2: a returned page always comes from an attempt the upstream answered
(or the budget was used up with a final 429 and the page is empty); an
all-failures run whose final attempt is a non-429 failure raises; but a
retry budget exhausted entirely by HTTP 429 responses falls out of the loop
and RETURNS THE EMPTY LIST instead of raising. -/
theorem C2_safe_request_exhaustion (script : List FetchResp) (retries : Nat) :
    (∀ rs, safe_request script retries = .rows rs →
      (∃ i < retries, respAt script i = .ok rs) ∨
        (rs = [] ∧ (retries = 0 ∨ ∃ ra, respAt script (retries - 1) = .rate429 ra))) ∧
    (1 ≤ retries → (∀ i < retries, isOkResp (respAt script i) = false) →
      respAt script (retries - 1) = .exc → safe_request script retries = .raised) ∧
    ((∀ i < retries, is429Resp (respAt script i) = true) →
      safe_request script retries = .rows []) := by
  refine ⟨fun rs h => srLoop_rows retries 2 script rs h, fun h1 h2 h3 => ?_, fun hall => ?_⟩
  · refine srLoop_exhaust_exc retries 2 script h1 (fun i hi rows hcontra => ?_) h3
    have hb := h2 i hi
    rw [hcontra] at hb
    exact Bool.noConfusion hb
  · refine srLoop_all429 retries 2 script (fun i hi => ?_)
    have hb := hall i hi
    cases hresp : respAt script i with
    | ok rows => rw [hresp] at hb; exact Bool.noConfusion hb
    | rate429 ra => exact ⟨ra, rfl⟩
    | exc => rw [hresp] at hb; exact Bool.noConfusion hb

/-- C2 witness: the three parts at concrete scripts — two 429s then out of
budget, and a single failing attempt. -/
theorem C2_safe_request_exhaustion_w :
    ((∃ i < 2, respAt [FetchResp.rate429 none, FetchResp.rate429 none] i = .ok []) ∨
      (([] : List Nat) = [] ∧ (2 = 0 ∨
        ∃ ra, respAt [FetchResp.rate429 none, FetchResp.rate429 none] (2 - 1) = .rate429 ra))) ∧
    safe_request [FetchResp.exc] 1 = .raised ∧
    safe_request [FetchResp.rate429 none, FetchResp.rate429 none] 2 = .rows [] :=
  ⟨(C2_safe_request_exhaustion [FetchResp.rate429 none, FetchResp.rate429 none] 2).1 []
      (by decide),
   (C2_safe_request_exhaustion [FetchResp.exc] 1).2.1 (by decide) (by decide) (by decide),
   (C2_safe_request_exhaustion [FetchResp.rate429 none, FetchResp.rate429 none] 2).2.2
      (by decide)⟩

/-- C2 counterexample: with retries = 2 and both attempts answered 429, the
failure does NOT propagate as an exception: safe_request returns the empty
row list. -/
theorem C2_all429_returns_empty :
    safe_request [FetchResp.rate429 none, FetchResp.rate429 none] 2 = .rows [] ∧
    safe_request [FetchResp.rate429 none, FetchResp.rate429 none] 2 ≠ .raised := by decide

/-- C3: inside the fetch loop a chunk is skipped only when its data file
AND its manifest are both present, and otherwise its offset is refetched;
but the per-window resume count of resume_index_for_layout is computed from
data-file names alone — the recorded manifests never enter it. -/
theorem C3_skip_needs_both :
    (∀ (P : WinParams) (s e : Date) (oracle : Nat → FetchOutcome) (shaOf : String → String)
        (fuel offset chunk_no : Nat) (st : WinState),
      ((win_names P chunk_no).1 ∈ st.fs.files ∧ (win_names P chunk_no).2 ∈ st.fs.files) →
        win_loop P s e oracle shaOf (fuel + 1) offset chunk_no st =
          win_loop P s e oracle shaOf fuel (offset + P.chunk_size) (chunk_no + 1) st) ∧
    (∀ (P : WinParams) (s e : Date) (oracle : Nat → FetchOutcome) (shaOf : String → String)
        (fuel offset chunk_no : Nat) (st : WinState),
      ¬((win_names P chunk_no).1 ∈ st.fs.files ∧ (win_names P chunk_no).2 ∈ st.fs.files) →
        offset ∈ (win_loop P s e oracle shaOf (fuel + 1) offset chunk_no st).1.fetched) ∧
    (∀ (fs : FS) (w m fmt layout : String) (comp : Option String)
        (L : List (String × ManifestJson)),
      resume_index_for_layout { fs with manifests := L } w m fmt layout comp =
        resume_index_for_layout fs w m fmt layout comp) :=
  ⟨fun _ _ _ _ _ _ _ _ _ hc => win_loop_skip hc,
   fun P s e oracle shaOf fuel offset chunk_no st hc =>
     win_loop_fetches P s e oracle shaOf fuel offset chunk_no st hc,
   fun fs w m fmt layout comp L => resume_manifests_indep fs w m fmt layout comp L⟩

/-- C3 witness: with both files present chunk 1 is skipped; with the
manifest missing, offset 0 is queried again. -/
theorem C3_skip_needs_both_w :
    (win_loop
        { out_format := "csv", layout := "nested", mode_label := "daily",
          wid := "2025-11-05", compression := none, chunk_size := 2,
          engineAvailable := true, select := none }
        ⟨2025, 11, 5⟩ ⟨2025, 11, 5⟩ (fun _ => .page 0) (fun _ => "h") (0 + 1) 0 1
        { fs := { dirExists := true,
                  files := ["2025-11-05_chunk_0001.csv",
                            "2025-11-05_chunk_0001.manifest.json"],
                  manifests := [] },
          wroteAny := false, createdThisRun := false, fetched := [] } =
      win_loop
        { out_format := "csv", layout := "nested", mode_label := "daily",
          wid := "2025-11-05", compression := none, chunk_size := 2,
          engineAvailable := true, select := none }
        ⟨2025, 11, 5⟩ ⟨2025, 11, 5⟩ (fun _ => .page 0) (fun _ => "h") 0 (0 + 2) (1 + 1)
        { fs := { dirExists := true,
                  files := ["2025-11-05_chunk_0001.csv",
                            "2025-11-05_chunk_0001.manifest.json"],
                  manifests := [] },
          wroteAny := false, createdThisRun := false, fetched := [] }) ∧
    0 ∈ (win_loop
        { out_format := "csv", layout := "nested", mode_label := "daily",
          wid := "2025-11-05", compression := none, chunk_size := 2,
          engineAvailable := true, select := none }
        ⟨2025, 11, 5⟩ ⟨2025, 11, 5⟩ (fun _ => .page 0) (fun _ => "h") (0 + 1) 0 1
        { fs := { dirExists := true, files := ["2025-11-05_chunk_0001.csv"],
                  manifests := [] },
          wroteAny := false, createdThisRun := false, fetched := [] }).1.fetched ∧
    resume_index_for_layout
        { dirExists := true, files := ["2025-11-05_chunk_0001.csv"],
          manifests := [("m",
            { data_file := "d", rows := 0, sha256 := none, params := [],
              started_at := 0, finished_at := 0, duration_seconds := 0,
              endpoint := "", version := 5, compression := "none" })] }
        "2025-11-05" "daily" "csv" "nested" none =
      resume_index_for_layout
        { dirExists := true, files := ["2025-11-05_chunk_0001.csv"], manifests := [] }
        "2025-11-05" "daily" "csv" "nested" none :=
  ⟨C3_skip_needs_both.1 _ ⟨2025, 11, 5⟩ ⟨2025, 11, 5⟩ (fun _ => .page 0) (fun _ => "h") 0 0 1 _
     (by decide),
   C3_skip_needs_both.2.1 _ ⟨2025, 11, 5⟩ ⟨2025, 11, 5⟩ (fun _ => .page 0) (fun _ => "h") 0 0 1 _
     (by decide),
   C3_skip_needs_both.2.2
     { dirExists := true, files := ["2025-11-05_chunk_0001.csv"], manifests := [] }
     "2025-11-05" "daily" "csv" "nested" none
     [("m",
       { data_file := "d", rows := 0, sha256 := none, params := [],
         started_at := 0, finished_at := 0, duration_seconds := 0,
         endpoint := "", version := 5, compression := "none" })]⟩

/-- C3 counterexample: resume_index_for_layout counts an orphaned data file
whose manifest was never written — the directory holds one chunk data file
and NO manifest, yet the resume count is 1, not 0 as a both-files
requirement would give. -/
theorem C3_orphan_counted :
    resume_index_for_layout
      { dirExists := true, files := ["2025-11-05_chunk_0000.csv"], manifests := [] }
      "2025-11-05" "daily" "csv" "nested" none = 1 := by decide

/-- C4: write_frame under the parquet fallback writes and returns the .csv
path, and run_windowed_mode records that returned path: every manifest its
final state holds names a file that exists. run_offset_mode does not (see
the counterexample). -/
theorem C4_fallback_recorded :
    (∀ (fs : FS) (p : String),
      (write_frame fs false p "parquet" none).2 = withSuffix p ".csv" ∧
      (write_frame fs false p "parquet" none).2 ∈
        ((write_frame fs false p "parquet" none).1).files) ∧
    (∀ (P : WinParams) (s e : Date) (oracle : Nat → FetchOutcome) (shaOf : String → String)
        (fuel : Nat) (fs0 : FS),
      (∀ pr ∈ fs0.manifests, pr.2.data_file ∈ fs0.files) →
      ∀ pr ∈ ((process_window P s e oracle shaOf fuel fs0).1).fs.manifests,
        pr.2.data_file ∈ ((process_window P s e oracle shaOf fuel fs0).1).fs.files) :=
  ⟨fun fs p => ⟨write_frame_fallback_path fs p, write_frame_ret_mem fs false p "parquet" none⟩,
   fun P s e oracle shaOf fuel fs0 hg =>
     (process_window_inv P s e oracle shaOf fuel fs0).2.2.2.1 hg⟩

/-- C4 witness: a windowed parquet run without an engine writes the CSV and
its one manifest names an existing file. -/
theorem C4_fallback_recorded_w :
    ((write_frame { dirExists := true, files := [], manifests := [] } false
        "a_chunk_0001.parquet" "parquet" none).2 =
      withSuffix "a_chunk_0001.parquet" ".csv" ∧
     (write_frame { dirExists := true, files := [], manifests := [] } false
        "a_chunk_0001.parquet" "parquet" none).2 ∈
      ((write_frame { dirExists := true, files := [], manifests := [] } false
        "a_chunk_0001.parquet" "parquet" none).1).files) ∧
    (∀ pr ∈ ((process_window
        { out_format := "parquet", layout := "nested", mode_label := "daily",
          wid := "2025-11-05", compression := none, chunk_size := 2,
          engineAvailable := false, select := none }
        ⟨2025, 11, 5⟩ ⟨2025, 11, 5⟩ (fun _ => .page 1) (fun _ => "h") 2
        { dirExists := false, files := [], manifests := [] }).1).fs.manifests,
      pr.2.data_file ∈ ((process_window
        { out_format := "parquet", layout := "nested", mode_label := "daily",
          wid := "2025-11-05", compression := none, chunk_size := 2,
          engineAvailable := false, select := none }
        ⟨2025, 11, 5⟩ ⟨2025, 11, 5⟩ (fun _ => .page 1) (fun _ => "h") 2
        { dirExists := false, files := [], manifests := [] }).1).fs.files) :=
  ⟨C4_fallback_recorded.1 { dirExists := true, files := [], manifests := [] }
     "a_chunk_0001.parquet",
   C4_fallback_recorded.2 _ ⟨2025, 11, 5⟩ ⟨2025, 11, 5⟩ (fun _ => .page 1) (fun _ => "h") 2 _
     (by decide)⟩

/-- C4 counterexample: in full mode with parquet configured and no engine,
the run writes chunk_0001.csv but its manifest records chunk_0001.parquet,
a path that does not exist — run_offset_mode uses the planned path, not the
path write_frame returned. -/
theorem C4_offset_manifest_planned :
    (((run_offset_mode
        { out_format := "parquet", chunk_size := 2, max_chunks := none,
          start_date := none, end_date := none, select := none, engineAvailable := false }
        (fun _ => .page 1) (fun _ => "h") 2
        { dirExists := false, files := [], manifests := [] }).1).fs.manifests.map
          (fun pr => pr.2.data_file)) = ["chunk_0001.parquet"] ∧
    "chunk_0001.parquet" ∉ ((run_offset_mode
        { out_format := "parquet", chunk_size := 2, max_chunks := none,
          start_date := none, end_date := none, select := none, engineAvailable := false }
        (fun _ => .page 1) (fun _ => "h") 2
        { dirExists := false, files := [], manifests := [] }).1).fs.files ∧
    "chunk_0001.csv" ∈ ((run_offset_mode
        { out_format := "parquet", chunk_size := 2, max_chunks := none,
          start_date := none, end_date := none, select := none, engineAvailable := false }
        (fun _ => .page 1) (fun _ => "h") 2
        { dirExists := false, files := [], manifests := [] }).1).fs.files := by decide

/-- C5: _suffix_candidates("parquet", None) is [".parquet"] alone — the
.csv and .csv.gz fallback suffixes are not scanned on a parquet resume, so
a directory holding one parquet chunk and one fallback CSV chunk resumes at
1, not 2 (the count the spec and the repository's own parametrized
test_resume_index_for_layout case expect). -/
theorem C5_parquet_candidates :
    suffix_candidates "parquet" none = [".parquet"] ∧
    resume_index_for_layout
      { dirExists := true,
        files := ["2024-01-02_chunk_0001.parquet", "2024-01-02_chunk_0002.csv"],
        manifests := [] }
      "2024-01-02" "daily" "parquet" "nested" none = 1 := by decide

/-- C6: the per-window state of run_windowed_mode leaves the directory flag
exactly as found whenever nothing was written for that window; but
run_offset_mode creates the base directory eagerly at initialisation — its
final state has the directory regardless of whether anything was written. -/
theorem C6_lazy_windowed_eager_full :
    (∀ (P : WinParams) (s e : Date) (oracle : Nat → FetchOutcome) (shaOf : String → String)
        (fuel : Nat) (fs0 : FS),
      ((process_window P s e oracle shaOf fuel fs0).1).wroteAny = false →
        ((process_window P s e oracle shaOf fuel fs0).1).fs.dirExists = fs0.dirExists) ∧
    (∀ (P : OffParams) (oracle : Nat → FetchOutcome) (shaOf : String → String)
        (fuel : Nat) (fs0 : FS),
      ((run_offset_mode P oracle shaOf fuel fs0).1).fs.dirExists = true) :=
  ⟨fun P s e oracle shaOf fuel fs0 =>
     (process_window_inv P s e oracle shaOf fuel fs0).2.2.1,
   fun P oracle shaOf fuel fs0 => run_offset_mode_dir P oracle shaOf fuel fs0⟩

/-- C6 witness: a windowed run that fetches an empty page leaves the
missing directory missing; a full run over the same upstream has created
it. -/
theorem C6_lazy_windowed_eager_full_w :
    ((process_window
        { out_format := "csv", layout := "nested", mode_label := "daily",
          wid := "2025-11-05", compression := none, chunk_size := 2,
          engineAvailable := true, select := none }
        ⟨2025, 11, 5⟩ ⟨2025, 11, 5⟩ (fun _ => .page 0) (fun _ => "h") 1
        { dirExists := false, files := [], manifests := [] }).1).fs.dirExists = false ∧
    ((run_offset_mode
        { out_format := "csv", chunk_size := 2, max_chunks := none,
          start_date := none, end_date := none, select := none, engineAvailable := true }
        (fun _ => .page 0) (fun _ => "h") 1
        { dirExists := false, files := [], manifests := [] }).1).fs.dirExists = true :=
  ⟨C6_lazy_windowed_eager_full.1 _ ⟨2025, 11, 5⟩ ⟨2025, 11, 5⟩ (fun _ => .page 0)
     (fun _ => "h") 1 { dirExists := false, files := [], manifests := [] } (by decide),
   C6_lazy_windowed_eager_full.2 _ (fun _ => .page 0) (fun _ => "h") 1
     { dirExists := false, files := [], manifests := [] }⟩

/-- C6 counterexample: run_offset_mode with an upstream that immediately
reports no data creates the base directory anyway: the final state has the
directory though no chunk was ever written into it, refuting lazy creation
for the full per-run mode. -/
theorem C6_offset_dir_eager :
    ((run_offset_mode
        { out_format := "csv", chunk_size := 2, max_chunks := none,
          start_date := none, end_date := none, select := none, engineAvailable := true }
        (fun _ => .page 0) (fun _ => "h") 1
        { dirExists := false, files := [], manifests := [] }).1).fs.dirExists = true ∧
    ((run_offset_mode
        { out_format := "csv", chunk_size := 2, max_chunks := none,
          start_date := none, end_date := none, select := none, engineAvailable := true }
        (fun _ => .page 0) (fun _ => "h") 1
        { dirExists := false, files := [], manifests := [] }).1).fs.files = [] := by decide

/-- C7: for the window 2025-11-05 .. 2025-11-05, soql_params_window emits a
$where filter bounding date >= 2025-11-05T00:00:00.000 and
< 2025-11-06T00:00:00.000, and neither bound carries a timezone
designator. -/
theorem C7_where_bounds (offset limit : Nat) (select : Option String) :
    List.lookup "$where"
        (soql_params_window offset limit ⟨2025, 11, 5⟩ ⟨2025, 11, 5⟩ select) =
      some "date >= '2025-11-05T00:00:00.000' AND date < '2025-11-06T00:00:00.000'" ∧
    'Z' ∉ ("date >= '2025-11-05T00:00:00.000' AND date < '2025-11-06T00:00:00.000'").data ∧
    '+' ∉ ("date >= '2025-11-05T00:00:00.000' AND date < '2025-11-06T00:00:00.000'").data := by
  cases select <;> exact ⟨rfl, by decide, by decide⟩

/-- C8: every weekly window identifier is built from the window's Monday as
calendar-year of the Monday (via %Y) paired with the Monday's ISO week
number — NOT the ISO week-numbering year. -/
theorem C8_week_id_form (s e : Date) (hs : s.Valid) :
    ∀ w ∈ week_windows s e,
      weekday w.1 = 0 ∧ w.2.2 = fmt04 w.1.y ++ "-W" ++ fmt02 (isoWeek w.1) := by
  have hwd : weekday s + 1 ≤ toOrd s := by
    have h1 := toOrd_pos hs
    have h2 : (toOrd s + 6) % 7 ≤ toOrd s - 1 := by omega
    unfold weekday
    omega
  obtain ⟨hmv, _⟩ := subDays_spec hs (weekday s) hwd
  intro w hw
  simp only [week_windows] at hw
  exact weekLoop_mem_wid e _ (subDays s (weekday s)) hmv (week_alignment hs).2 w hw

/-- C8 witness: the single window of the span 2025-11-05 .. 2025-11-05. -/
theorem C8_week_id_form_w :
    weekday (⟨2025, 11, 3⟩ : Date) = 0 ∧
    "2025-W45" = fmt04 2025 ++ "-W" ++ fmt02 (isoWeek ⟨2025, 11, 3⟩) :=
  C8_week_id_form ⟨2025, 11, 5⟩ ⟨2025, 11, 5⟩ (by decide)
    (⟨2025, 11, 3⟩, ⟨2025, 11, 5⟩, "2025-W45") (by decide)

/-- C8 counterexample: the week of Monday 2024-12-30 is ISO 2025-W01, but
week_windows labels it "2024-W01": the calendar year 2024 is paired with
ISO week 1. -/
theorem C8_id_not_iso_year :
    week_windows ⟨2024, 12, 30⟩ ⟨2024, 12, 30⟩ =
      [(⟨2024, 12, 30⟩, ⟨2024, 12, 30⟩, "2024-W01")] ∧
    isoYearWeek ⟨2024, 12, 30⟩ = (2025, 1) ∧
    ("2024-W01" : String) ≠ fmt04 2025 ++ "-W" ++ fmt02 1 := by decide

/-- C9: write_manifest never raises: it always returns ok, writing the
manifest whose fields are recorded from the arguments, with the sha256
field null exactly when the data file is absent. -/
theorem C9_manifest_total (fs : FS) (shaOf : String → String) (mp dp : String)
    (params : List (String × String)) (rows t0 t1 : Nat) (comp : Option String) :
    write_manifest fs shaOf mp dp params rows t0 t1 comp =
      .ok ({ fs with
              files := addFile fs.files mp
              manifests := (mp, manifestSpec fs shaOf dp params rows t0 t1 comp)
                :: fs.manifests },
           manifestSpec fs shaOf dp params rows t0 t1 comp) ∧
    (manifestSpec fs shaOf dp params rows t0 t1 comp).sha256 =
      (if dp ∈ fs.files then some (shaOf dp) else none) ∧
    (manifestSpec fs shaOf dp params rows t0 t1 comp).data_file = dp ∧
    (manifestSpec fs shaOf dp params rows t0 t1 comp).rows = rows ∧
    (manifestSpec fs shaOf dp params rows t0 t1 comp).params = params ∧
    (manifestSpec fs shaOf dp params rows t0 t1 comp).started_at = t0 ∧
    (manifestSpec fs shaOf dp params rows t0 t1 comp).finished_at = t1 ∧
    (manifestSpec fs shaOf dp params rows t0 t1 comp).duration_seconds = t1 - t0 ∧
    (manifestSpec fs shaOf dp params rows t0 t1 comp).endpoint = BASE_URL ∧
    (manifestSpec fs shaOf dp params rows t0 t1 comp).version = 5 ∧
    (manifestSpec fs shaOf dp params rows t0 t1 comp).compression = comp.getD "none" :=
  ⟨write_manifest_ok fs shaOf mp dp params rows t0 t1 comp,
   rfl, rfl, rfl, rfl, rfl, rfl, rfl, rfl, rfl, rfl⟩

/-- C10: in the nested and ymd layouts the resume count never depends on
the wid or mode_label arguments: the glob pattern is *chunk_*<suffix>. -/
theorem C10_resume_indep (fs : FS) (w1 m1 w2 m2 fmt layout : String)
    (comp : Option String) (h : layout = "nested" ∨ layout = "ymd") :
    resume_index_for_layout fs w1 m1 fmt layout comp =
      resume_index_for_layout fs w2 m2 fmt layout comp :=
  resume_layout_indep fs w1 m1 w2 m2 fmt layout comp h

/-- C10 witness: two calls differing in wid and mode_label over the same
nested-layout directory. -/
theorem C10_resume_indep_w :
    resume_index_for_layout
        { dirExists := true, files := ["a_chunk_0001.csv"], manifests := [] }
        "2024-01-02" "daily" "csv" "nested" none =
      resume_index_for_layout
        { dirExists := true, files := ["a_chunk_0001.csv"], manifests := [] }
        "2024-W05" "weekly" "csv" "nested" none :=
  C10_resume_indep { dirExists := true, files := ["a_chunk_0001.csv"], manifests := [] }
    "2024-01-02" "daily" "2024-W05" "weekly" "csv" "nested" none (by decide)

end CCD
